import Mathlib

/-!
# Verification of the canonical-dataset builder (`update_news_data_latest.py`)

Shallow embedding of the repository's canonical-dataset builder.  A CSV row is
modelled as a `Record` of seven string fields (the values as loaded; pandas'
`astype(str)` is the identity in this model).  `pd.to_datetime(_, errors="coerce")`
is modelled by an arbitrary parse function `p : String → Option Nat` (`none` = NaT).

`DataFrame.sort_values` is called with the default `kind='quicksort'`, which is
not stable, so the code fixes its result only up to the guarantees of pandas'
`nargsort`: the output is a permutation of the input, it is ordered on the key
with NaT last (`na_position='last'`), and the NaT rows keep their original
relative order (they are extracted before the argsort and appended in position
order) — the order among rows with *equal parseable* keys is unspecified.  That
exact contract is the relation `SortSpec`, and one whole admissible execution
of `build_latest` is the relation `BuildRun`; order-sensitive claims quantify
over every admissible outcome.  The stable insertion sort `sSort` is one
admissible outcome (`SortSpec` holds of it), used to instantiate executions
and to analyse the fragment on which all outcomes agree.
`drop_duplicates(keep="last")` is `keepLast`, which keeps the last occurrence
of each key and preserves the relative order of the kept rows.  CSV
serialisation is a function of the record list, so equality of record lists
gives byte-identical output files.
-/

namespace NewsData

/-- One row of a partial collection: the seven required fields of
`REQUIRED_COLUMNS`, kept as the strings loaded from the CSV file. -/
structure Record where
  title : String
  link : String
  summary : String
  publisher : String
  reporter : String
  signal : String
  collected_at : String
deriving DecidableEq, Repr

/-- `REQUIRED_COLUMNS` from the source. -/
def REQUIRED_COLUMNS : List String :=
  ["title", "link", "summary", "publisher", "reporter", "signal", "collected_at"]

/-- `OUTPUT_FILES` from the source. -/
def OUTPUT_FILES : List String := ["news_data.csv", "news_data_latest.csv"]

/-- `CANONICAL_FILE` from the source. -/
def CANONICAL_FILE : String := "news_data_latest.csv"

/-- Python `str.strip()`: remove leading and trailing whitespace
(structural implementation over the character list). -/
def strip (s : String) : String :=
  ⟨((s.data.dropWhile Char.isWhitespace).reverse.dropWhile Char.isWhitespace).reverse⟩

/-- Python `str.lower()` (ASCII lowering, which covers the `"nan"`/`"NaN"`
sentinels compared against). -/
def lowerStr (s : String) : String := ⟨s.data.map Char.toLower⟩

/-- Lexicographic (code-point) comparison of strings, as Python compares the
components of two paths. -/
def charListLt : List Char → List Char → Bool
  | [], [] => false
  | [], _ :: _ => true
  | _ :: _, [] => false
  | a :: as, b :: bs => if a < b then true else if b < a then false else charListLt as bs

/-- Strict string order. -/
def strLt (a b : String) : Bool := charListLt a.data b.data

/-- `df["summary"].astype(str).str.strip()` followed by the mask
`summary.ne("") & summary.ne("nan") & summary.ne("None")` (source lines 45-46). -/
def validSummary (r : Record) : Bool :=
  let s := strip r.summary
  !(s == "") && !(s == "nan") && !(s == "None")

/-- The `has_link` mask on a raw link value:
`link.astype(str).str.strip()` then `link.ne("") & link.str.lower().ne("nan")`
(source lines 51-52). -/
def hasLinkStr (s : String) : Bool :=
  !(strip s == "") && !(lowerStr (strip s) == "nan")

/-- The `has_link` mask of a record. -/
def hasLink (r : Record) : Bool := hasLinkStr r.link

/-- Strict order on parsed timestamps: `none` (NaT) is greater than every
parsed value, so that NaT sorts last in the ascending order. -/
def fLt : Option Nat → Option Nat → Bool
  | some a, some b => a < b
  | some _, none => true
  | none, _ => false

/-- The ascending comparison used by `sort_values("__collected_at_dt")`
with the default `na_position='last'`: parsed values ascending, NaT last. -/
def optAscLe : Option Nat → Option Nat → Bool
  | some a, some b => a ≤ b
  | some _, none => true
  | none, some _ => false
  | none, none => true

/-- The comparison of `sort_values("__collected_at_dt", ascending=False)`
with the default `na_position='last'`: parsed values descending, NaT last. -/
def optDescLe : Option Nat → Option Nat → Bool
  | some a, some b => b ≤ a
  | some _, none => true
  | none, some _ => false
  | none, none => true

/-- Ascending row comparison induced by a timestamp key `f`. -/
def ascOf (f : α → Option Nat) (a b : α) : Bool := optAscLe (f a) (f b)

/-- Descending row comparison induced by a timestamp key `f`. -/
def descOf (f : α → Option Nat) (a b : α) : Bool := optDescLe (f a) (f b)

/-- The parsed `collected_at` of a record, for a parse function `p`
(`pd.to_datetime(df["collected_at"], errors="coerce")`, line 48). -/
def tsOf (p : String → Option Nat) (r : Record) : Option Nat := p r.collected_at

/-- Row comparison of the ascending sort on `__collected_at_dt` (line 49). -/
def ascLe (p : String → Option Nat) : Record → Record → Bool := ascOf (tsOf p)

/-- Row comparison of the descending sort on `__collected_at_dt` (line 58). -/
def descLe (p : String → Option Nat) : Record → Record → Bool := descOf (tsOf p)

/-- Stable insertion of `a` into `l`: `a` goes in front of the first element
`b` with `le a b`, so an element inserted earlier ends up before the elements
it ties with. -/
def sInsert (le : α → α → Bool) (a : α) : List α → List α
  | [] => [a]
  | b :: l => if le a b then a :: b :: l else b :: sInsert le a l

/-- Stable sort modelling `DataFrame.sort_values`: equal keys keep their
relative row order, and (with `optAscLe`/`optDescLe`) NaT rows end up last
in their original relative order, as with pandas `na_position='last'`. -/
def sSort (le : α → α → Bool) : List α → List α
  | [] => []
  | a :: l => sInsert le a (sSort le l)

/-- `DataFrame.drop_duplicates(subset=…, keep="last")`: a row is kept iff no
later row has the same key; kept rows stay in their relative order. -/
def keepLast [DecidableEq κ] (k : α → κ) : List α → List α
  | [] => []
  | a :: l => if l.any (fun b => k b = k a) then keepLast k l else a :: keepLast k l

/-- The `with_link` branch of `build_latest` (lines 45-54): validate summaries,
sort ascending by parsed `collected_at`, restrict to rows with a usable link,
and keep the last row of each `link` group. -/
def dedupLinked (p : String → Option Nat) (df : List Record) : List Record :=
  keepLast (fun r => r.link)
    (List.filter hasLink (sSort (ascLe p) (df.filter validSummary)))

/-- The `without_link` branch of `build_latest` (lines 45-55): validate
summaries, sort ascending, restrict to rows without a usable link, and keep
the last row of each `(title, summary)` group. -/
def dedupLinkless (p : String → Option Nat) (df : List Record) : List Record :=
  keepLast (fun r => (r.title, r.summary))
    (List.filter (fun r => !hasLink r) (sSort (ascLe p) (df.filter validSummary)))

/-- `build_latest` (lines 41-61): empty guard, summary validation, ascending
sort, split on `has_link`, per-key dedup keeping the last row, concatenation
`with_link ++ without_link`, final descending sort by parsed `collected_at`. -/
def build (p : String → Option Nat) (df : List Record) : List Record :=
  if df.isEmpty then df
  else sSort (descLe p) (dedupLinked p df ++ dedupLinkless p df)

/-! ## Source files, the loader and the runner -/

/-- A file on disk as seen by `pd.read_csv`: either unparseable as tabular
data (`read_csv` raises) or a table with a header row and data rows. -/
inductive CsvFile where
  | malformed
  | table (cols : List String) (rows : List (List String))
deriving DecidableEq, Repr

/-- Value of column `c` in a row, given the header (field order in the file is
irrelevant; extra columns are ignored). -/
def getCol (cols : List String) (row : List String) (c : String) : String :=
  match cols.indexOf? c with
  | some i => row.getD i ""
  | none => ""

/-- `df[REQUIRED_COLUMNS]`: extract the seven required fields of a row. -/
def toRecord (cols : List String) (row : List String) : Record :=
  { title := getCol cols row "title"
    link := getCol cols row "link"
    summary := getCol cols row "summary"
    publisher := getCol cols row "publisher"
    reporter := getCol cols row "reporter"
    signal := getCol cols row "signal"
    collected_at := getCol cols row "collected_at" }

/-- Does a table contain every required column?  (`missing` check, line 30). -/
def goodFile : CsvFile → Bool
  | .malformed => false
  | .table cols _ => REQUIRED_COLUMNS.all (fun c => cols.contains c)

/-- `load_sources` (lines 26-38): read each file in order; a `read_csv`
failure or a missing required column raises (the whole run fails); otherwise
the rows of all files are concatenated in file order.  Zero files yield the
empty frame `pd.DataFrame(columns=REQUIRED_COLUMNS)`, i.e. no records. -/
def loadSources : List CsvFile → Except String (List Record)
  | [] => .ok []
  | .malformed :: _ => .error "read_csv failed"
  | .table cols rows :: rest =>
    if REQUIRED_COLUMNS.all (fun c => cols.contains c) then
      match loadSources rest with
      | .ok tl => .ok (rows.map (toRecord cols) ++ tl)
      | .error e => .error e
    else .error "Missing columns"

/-- One file under the root: directory components, file name, content.
The full path is `dir ++ [name]`. -/
structure FsEntry where
  dir : List String
  name : String
  content : CsvFile
deriving DecidableEq, Repr

/-- Full path of an entry as a component list. -/
def fullPath (e : FsEntry) : List String := e.dir ++ [e.name]

/-- Lexicographic order on paths (component lists ordered by the string
order), the order `sorted()` applies to the discovered `Path`s. -/
def pathLe : List String → List String → Bool
  | [], _ => true
  | _ :: _, [] => false
  | a :: as, b :: bs => if strLt a b then true else if strLt b a then false else pathLe as bs

/-- The filename pattern `news_data*.csv` of `rglob`.  For this pattern the
fnmatch semantics `∃ mid, name = "news_data" ++ mid ++ ".csv"` coincide with
the prefix/suffix test, since a string shorter than 13 characters cannot both
start with `news_data` and end with `.csv` (character 8 would have to be both
`a` and `.`). -/
def matchesPattern (name : String) : Bool :=
  "news_data".data.isPrefixOf name.data && ".csv".data.isSuffixOf name.data

/-- `find_source_files` (lines 21-23): `sorted(root.rglob("news_data*.csv"))`
then drop entries named exactly `CANONICAL_FILE`.  `rglob` recurses into
subdirectories at any depth and matches the pattern against the file name. -/
def findSourceFiles (fs : List FsEntry) : List FsEntry :=
  (sSort (fun a b => pathLe (fullPath a) (fullPath b))
      (fs.filter (fun e => matchesPattern e.name))).filter
    (fun e => !(e.name == CANONICAL_FILE))

/-- What a run writes and prints. -/
structure RunOutput where
  written : List (String × (List String × List Record))
  stdout : List String
deriving DecidableEq, Repr

/-- `main` (lines 64-75): discover sources, load them (an unusable file makes
the whole run fail), build the canonical list, write header plus rows to
every output target, and report the counts on standard output. -/
def mainRun (p : String → Option Nat) (fs : List FsEntry) : Except String RunOutput :=
  let files := findSourceFiles fs
  match loadSources (files.map (fun e => e.content)) with
  | .error e => .error e
  | .ok merged =>
    let latest := build p merged
    .ok { written := OUTPUT_FILES.map (fun t => (t, (REQUIRED_COLUMNS, latest)))
          stdout := ("source_files=" ++ toString files.length)
              :: files.map (fun e => " - " ++ String.intercalate "/" (fullPath e))
              ++ ["rows_written=" ++ toString latest.length] }

/-- Replace (or create) the binding of target `t` on the disk: a full
replacement of the prior content, as `to_csv` overwrites the file. -/
def store (disk : List (String × γ)) (t : String) (c : γ) : List (String × γ) :=
  (t, c) :: disk.filter (fun x => !(x.1 == t))

/-- The writer loop of `main` (lines 69-70) with a failure oracle `canWrite`:
targets are written one after the other; a failing `to_csv` raises, so the
loop stops, later targets are not attempted, and the run reports failure.
Returns the final disk and whether the run succeeded. -/
def writeSeq (canWrite : String → Bool) (c : γ) :
    List (String × γ) → List String → List (String × γ) × Bool
  | disk, [] => (disk, true)
  | disk, t :: ts =>
    if canWrite t then writeSeq canWrite c (store disk t c) ts else (disk, false)

/-! ## Devices for the idempotence proof

The stable pipeline is analysed by tagging every pool row with its load
position.  `rkLe` is the total order the stable ascending sort realises on
tagged rows: timestamp order with NaT last, ties broken by load position. -/

/-- Tag the elements of a list with consecutive positions starting at `n`. -/
def tagFrom (n : Nat) : List α → List (Nat × α)
  | [] => []
  | a :: l => (n, a) :: tagFrom (n + 1) l

/-- Rank order on tagged rows: ascending timestamp (NaT last), position as
the tie-break.  On rows with distinct tags this is a strict-total order. -/
def rkLe (f : α → Option Nat) (x y : Nat × α) : Bool :=
  fLt (f x.2) (f y.2) || (decide (f x.2 = f y.2) && decide (x.1 ≤ y.1))

/-- Strict part of `rkLe` for distinct tags. -/
def rkLt (f : α → Option Nat) (x y : Nat × α) : Bool :=
  fLt (f x.2) (f y.2) || (decide (f x.2 = f y.2) && decide (x.1 < y.1))

/-- The tagged deduplication result: sort the tagged pool by rank and keep
the last (i.e. maximal-rank) row of every key group. -/
def winList (f : α → Option Nat) [DecidableEq κ] (k : α → κ) (E : List (Nat × α)) :
    List (Nat × α) :=
  keepLast (fun x => k x.2) (sSort (rkLe f) E)

/-- `u` occurs strictly before `v` in `l`. -/
def Before (l : List α) (u v : α) : Prop :=
  ∃ l₁ l₂ l₃, l = l₁ ++ u :: (l₂ ++ v :: l₃)

/-! ## Concrete data used by the witnesses -/

/-- A concrete timestamp parser used to instantiate witnesses: a fixed table
of parseable timestamp strings. -/
def natTs (s : String) : Option Nat :=
  match s with
  | "1" => some 1
  | "2" => some 2
  | "3" => some 3
  | "4" => some 4
  | "5" => some 5
  | _ => none

/-- Shorthand to build concrete records in witnesses. -/
def mkRec (t l s ts : String) : Record :=
  { title := t, link := l, summary := s, publisher := "P", reporter := "R",
    signal := "FLAT", collected_at := ts }

/-- A canonical serialisation of the single concrete record used in the
writer scenario. -/
def demoContent : List String × List Record :=
  (REQUIRED_COLUMNS, [mkRec "t" "http://x" "s" "1"])

/-- The stale content both targets hold before the writer scenario runs. -/
def demoOldContent : List String × List Record := (REQUIRED_COLUMNS, [])

/-- A disk on which both output targets exist with stale content. -/
def demoDisk : List (String × (List String × List Record)) :=
  [("news_data.csv", demoOldContent), ("news_data_latest.csv", demoOldContent)]

/-- A failure oracle under which only the first target is writable. -/
def failSecond : String → Bool := fun t => t == "news_data.csv"

/-- The last element of `l` satisfying `q`, if any. -/
def lastWith (q : α → Bool) : List α → Option α
  | [] => none
  | a :: l => (lastWith q l).elim (if q a then some a else none) some

/-- What `DataFrame.sort_values(_, na_position='last')` with the default
`kind='quicksort'` guarantees about its result (pandas `nargsort`): the output
is a permutation of the input, it is pairwise ordered under the key
comparison — which for `optAscLe`/`optDescLe` forces the NaT rows last — and
the NaT rows keep their original relative input order.  The order among rows
with equal parseable keys is *not* specified: the default quicksort is not
stable, so every interleaving of tied rows is an admissible outcome. -/
def SortSpec (f : α → Option Nat) (le : α → α → Bool) (l out : List α) : Prop :=
  List.Perm out l ∧ out.Pairwise (fun a b => le a b = true) ∧
    out.filter (fun a => (f a).isNone) = l.filter (fun a => (f a).isNone)

/-- The `with_link` branch (lines 52-54) applied to a given outcome `asc` of
the ascending sort: mask `has_link`, then
`drop_duplicates(subset=["link"], keep="last")`. -/
def dedupLinkedOn (asc : List Record) : List Record :=
  keepLast (fun r => r.link) (List.filter hasLink asc)

/-- The `without_link` branch (lines 53-55) applied to a given outcome `asc`
of the ascending sort. -/
def dedupLinklessOn (asc : List Record) : List Record :=
  keepLast (fun r => (r.title, r.summary)) (List.filter (fun r => !hasLink r) asc)

/-- One admissible execution of `build_latest` (lines 41-61), relating the
input pool to the final frame: the empty guard returns the pool unchanged;
otherwise some admissible outcome `asc` of the ascending sort of the validated
pool is split on `has_link` and deduplicated, and the final frame is an
admissible outcome of the descending sort of the concatenation.  The relation
quantifies over the sort outcomes because `sort_values` is called with the
unstable default quicksort. -/
def BuildRun (p : String → Option Nat) (df final : List Record) : Prop :=
  if df.isEmpty then final = df
  else ∃ asc, SortSpec (tsOf p) (ascLe p) (df.filter validSummary) asc ∧
    SortSpec (tsOf p) (descLe p) (dedupLinkedOn asc ++ dedupLinklessOn asc) final

/-! ## Generic facts about the stable sort -/

theorem sInsert_perm (le : α → α → Bool) (a : α) (l : List α) :
    List.Perm (sInsert le a l) (a :: l) := by
  induction l with
  | nil => simp [sInsert]
  | cons b l ih =>
    simp only [sInsert]
    split
    · exact List.Perm.refl _
    · exact (ih.cons b).trans (List.Perm.swap a b l)

theorem sSort_perm (le : α → α → Bool) (l : List α) : List.Perm (sSort le l) l := by
  induction l with
  | nil => exact List.Perm.refl _
  | cons a l ih => exact (sInsert_perm le a (sSort le l)).trans (ih.cons a)

theorem mem_sSort {le : α → α → Bool} {a : α} {l : List α} :
    a ∈ sSort le l ↔ a ∈ l :=
  (sSort_perm le l).mem_iff

theorem mem_sInsert {le : α → α → Bool} {a b : α} {l : List α} :
    a ∈ sInsert le b l ↔ a = b ∨ a ∈ l := by
  rw [(sInsert_perm le b l).mem_iff, List.mem_cons]

theorem sInsert_pairwise {le : α → α → Bool}
    (htr : ∀ a b c, le a b = true → le b c = true → le a c = true)
    (htot : ∀ a b, le a b = true ∨ le b a = true)
    {a : α} {l : List α} (hl : l.Pairwise (fun x y => le x y = true)) :
    (sInsert le a l).Pairwise (fun x y => le x y = true) := by
  induction l with
  | nil => simp [sInsert]
  | cons b l ih =>
    rcases List.pairwise_cons.mp hl with ⟨hb, hl'⟩
    simp only [sInsert]
    split
    case isTrue h =>
      refine List.pairwise_cons.mpr ⟨?_, hl⟩
      intro c hc
      rcases List.mem_cons.mp hc with rfl | hc
      · exact h
      · exact htr a b c h (hb c hc)
    case isFalse h =>
      refine List.pairwise_cons.mpr ⟨?_, ih hl'⟩
      intro c hc
      rcases mem_sInsert.mp hc with he | hc
      · rw [he]
        rcases htot a b with h' | h'
        · exact absurd h' h
        · exact h'
      · exact hb c hc

theorem sSort_pairwise {le : α → α → Bool}
    (htr : ∀ a b c, le a b = true → le b c = true → le a c = true)
    (htot : ∀ a b, le a b = true ∨ le b a = true)
    (l : List α) : (sSort le l).Pairwise (fun x y => le x y = true) := by
  induction l with
  | nil => simp [sSort]
  | cons a l ih => exact sInsert_pairwise htr htot ih

theorem sInsert_of_forall_le {le : α → α → Bool} {a : α} {l : List α}
    (h : ∀ b ∈ l, le a b = true) : sInsert le a l = a :: l := by
  cases l with
  | nil => rfl
  | cons b l => simp [sInsert, h b (List.mem_cons_self b l)]

theorem filter_sInsert {le : α → α → Bool}
    (htr : ∀ a b c, le a b = true → le b c = true → le a c = true)
    (htot : ∀ a b, le a b = true ∨ le b a = true)
    (q : α → Bool) {a : α} {l : List α}
    (hl : l.Pairwise (fun x y => le x y = true)) :
    (sInsert le a l).filter q =
      if q a then sInsert le a (l.filter q) else l.filter q := by
  induction l with
  | nil => cases h : q a <;> simp [sInsert, List.filter, h]
  | cons b l ih =>
    rcases List.pairwise_cons.mp hl with ⟨hb, hl'⟩
    simp only [sInsert]
    split
    case isTrue h =>
      have hall : ∀ c ∈ (b :: l).filter q, le a c = true := by
        intro c hc
        rcases List.mem_cons.mp (List.mem_of_mem_filter hc) with rfl | hc'
        · exact h
        · exact htr a b c h (hb c hc')
      cases hqa : q a
      · simp [List.filter_cons, hqa]
      · rw [sInsert_of_forall_le hall]
        simp [List.filter_cons, hqa]
    case isFalse h =>
      simp only [List.filter_cons]
      rw [ih hl']
      cases hqb : q b <;> cases hqa : q a <;>
        simp [List.filter_cons, hqb, hqa, sInsert, h]

theorem filter_sSort {le : α → α → Bool}
    (htr : ∀ a b c, le a b = true → le b c = true → le a c = true)
    (htot : ∀ a b, le a b = true ∨ le b a = true)
    (q : α → Bool) (l : List α) :
    (sSort le l).filter q = sSort le (l.filter q) := by
  induction l with
  | nil => rfl
  | cons a l ih =>
    simp only [sSort]
    rw [filter_sInsert htr htot q (sSort_pairwise htr htot l), ih]
    cases hqa : q a
    · simp [List.filter, hqa, sSort]
    · simp [List.filter, hqa, sSort]

theorem filter_sInsert_tied {le : α → α → Bool} {q : α → Bool}
    (hq : ∀ a b, q a = true → q b = true → le a b = true)
    {a : α} (l : List α) :
    (sInsert le a l).filter q = if q a then a :: l.filter q else l.filter q := by
  induction l with
  | nil => cases h : q a <;> simp [sInsert, List.filter, h]
  | cons b l ih =>
    simp only [sInsert]
    split
    case isTrue h => cases hqa : q a <;> simp [List.filter, hqa]
    case isFalse h =>
      cases hqa : q a
      · cases hqb : q b <;> simp_all [List.filter]
      · have hqb : q b = false := by
          cases hqb : q b
          · rfl
          · exact absurd (hq a b hqa hqb) (by simpa using h)
        simp only [List.filter, hqb]
        rw [ih]
        simp [hqa]

/-- Stability: the rows of a class whose members all compare `le`-equal keep
exactly their relative input order through the stable sort. -/
theorem filter_sSort_tied {le : α → α → Bool} {q : α → Bool}
    (hq : ∀ a b, q a = true → q b = true → le a b = true)
    (l : List α) : (sSort le l).filter q = l.filter q := by
  induction l with
  | nil => rfl
  | cons a l ih =>
    simp only [sSort]
    rw [filter_sInsert_tied hq, ih]
    cases hqa : q a <;> simp [List.filter, hqa]

/-! ## Facts about keepLast -/

theorem keepLast_sublist [DecidableEq κ] (k : α → κ) (l : List α) :
    (keepLast k l).Sublist l := by
  induction l with
  | nil => simp [keepLast]
  | cons a l ih =>
    simp only [keepLast]
    split
    · exact ih.trans (List.sublist_cons_self a l)
    · exact ih.cons₂ a

theorem mem_keepLast [DecidableEq κ] {k : α → κ} {a : α} {l : List α}
    (h : a ∈ keepLast k l) : a ∈ l :=
  (keepLast_sublist k l).mem h

theorem keepLast_pairwise [DecidableEq κ] {k : α → κ} {R : α → α → Prop} {l : List α}
    (h : l.Pairwise R) : (keepLast k l).Pairwise R :=
  h.sublist (keepLast_sublist k l)

theorem keepLast_keys_nodup [DecidableEq κ] (k : α → κ) (l : List α) :
    (keepLast k l).Pairwise (fun x y => k x ≠ k y) := by
  induction l with
  | nil => simp [keepLast]
  | cons a l ih =>
    simp only [keepLast]
    split
    case isTrue => exact ih
    case isFalse h =>
      refine List.pairwise_cons.mpr ⟨?_, ih⟩
      intro y hy hky
      exact h (List.any_eq_true.mpr ⟨y, mem_keepLast hy, by simp [hky]⟩)

theorem keepLast_exists_key [DecidableEq κ] {k : α → κ} {c : κ} {l : List α}
    (h : ∃ x ∈ l, k x = c) : ∃ w ∈ keepLast k l, k w = c := by
  induction l with
  | nil => simp at h
  | cons b l ih =>
    rcases h with ⟨x, hx, hkx⟩
    simp only [keepLast]
    split
    case isTrue hc =>
      rcases List.mem_cons.mp hx with he | h'
      · rcases List.any_eq_true.mp hc with ⟨y, hy, hky⟩
        refine ih ⟨y, hy, ?_⟩
        have h1 : k y = k b := by simpa using hky
        rw [h1]
        exact he ▸ hkx
      · exact ih ⟨x, h', hkx⟩
    case isFalse hc =>
      rcases List.mem_cons.mp hx with he | h'
      · exact ⟨b, List.mem_cons_self _ _, he ▸ hkx⟩
      · rcases ih ⟨x, h', hkx⟩ with ⟨w, hw, hkw⟩
        exact ⟨w, List.mem_cons_of_mem b hw, hkw⟩

theorem keepLast_mem_of_unique [DecidableEq κ] {k : α → κ} {a : α} {l : List α}
    (h : a ∈ l) (hu : ∀ y ∈ l, k y = k a → y = a) : a ∈ keepLast k l := by
  induction l with
  | nil => cases h
  | cons b l ih =>
    have hu' : ∀ z ∈ l, k z = k a → z = a :=
      fun z hz hkz => hu z (List.mem_cons_of_mem b hz) hkz
    simp only [keepLast]
    split
    case isTrue hc =>
      rcases List.any_eq_true.mp hc with ⟨y, hy, hky⟩
      have hkyb : k y = k b := by simpa using hky
      rcases List.mem_cons.mp h with he | h'
      · have hya : y = a := hu' y hy (by rw [hkyb, ← he])
        exact ih (hya ▸ hy) hu'
      · exact ih h' hu'
    case isFalse hc =>
      rcases List.mem_cons.mp h with he | h'
      · rw [he]
        exact List.mem_cons_self _ _
      · exact List.mem_cons_of_mem b (ih h' hu')

theorem filter_keepLast [DecidableEq κ] {k : α → κ} {q : α → Bool}
    (hq : ∀ x y, k x = k y → q x = q y) (l : List α) :
    (keepLast k l).filter q = keepLast k (l.filter q) := by
  induction l with
  | nil => rfl
  | cons a l ih =>
    cases hqa : q a
    · have hfa : (a :: l).filter q = l.filter q := by simp [List.filter_cons, hqa]
      rw [hfa, ← ih]
      simp only [keepLast]
      split
      · rfl
      · simp [List.filter_cons, hqa]
    · have hcond : (l.filter q).any (fun b => k b = k a) = l.any (fun b => k b = k a) := by
        cases he : l.any (fun b => k b = k a)
        · simp only [List.any_eq_false, List.mem_filter, decide_eq_true_eq] at he ⊢
          intro x hx
          exact he x hx.1
        · simp only [List.any_eq_true, List.mem_filter, decide_eq_true_eq] at he ⊢
          rcases he with ⟨x, hx, hkx⟩
          exact ⟨x, ⟨hx, (hq x a hkx).trans hqa⟩, hkx⟩
      have hfa : (a :: l).filter q = a :: l.filter q := by simp [List.filter_cons, hqa]
      rw [hfa]
      rw [keepLast, keepLast, hcond]
      split
      · exact ih
      · simp [List.filter_cons, hqa, ih]

theorem keepLast_all_same [DecidableEq κ] {k : α → κ} {l : List α}
    (h : l ≠ []) (hk : ∀ x ∈ l, ∀ y ∈ l, k x = k y) :
    keepLast k l = [l.getLast h] := by
  induction l with
  | nil => exact absurd rfl h
  | cons a l ih =>
    cases l with
    | nil => simp [keepLast]
    | cons b l' =>
      have hcond : (b :: l').any (fun c => k c = k a) = true := by
        refine List.any_eq_true.mpr ⟨b, List.mem_cons_self _ _, ?_⟩
        simp [hk b (by simp) a (by simp)]
      have h1 : keepLast k (a :: b :: l') = keepLast k (b :: l') := by
        rw [keepLast, hcond]
        simp
      rw [h1, ih (by simp) (fun x hx y hy =>
        hk x (List.mem_cons_of_mem a hx) y (List.mem_cons_of_mem a hy))]
      simp [List.getLast_cons]

/-! ## Properties of the timestamp orders -/

theorem optAscLe_trans {x y z : Option Nat} (h1 : optAscLe x y = true)
    (h2 : optAscLe y z = true) : optAscLe x z = true := by
  cases x <;> cases y <;> cases z <;> simp_all [optAscLe] <;> omega

theorem optAscLe_total (x y : Option Nat) :
    optAscLe x y = true ∨ optAscLe y x = true := by
  cases x <;> cases y <;> simp [optAscLe] <;> omega

theorem optDescLe_trans {x y z : Option Nat} (h1 : optDescLe x y = true)
    (h2 : optDescLe y z = true) : optDescLe x z = true := by
  cases x <;> cases y <;> cases z <;> simp_all [optDescLe] <;> omega

theorem optDescLe_total (x y : Option Nat) :
    optDescLe x y = true ∨ optDescLe y x = true := by
  cases x <;> cases y <;> simp [optDescLe] <;> omega

theorem ascOf_trans (f : α → Option Nat) :
    ∀ a b c, ascOf f a b = true → ascOf f b c = true → ascOf f a c = true :=
  fun _ _ _ h1 h2 => optAscLe_trans h1 h2

theorem ascOf_total (f : α → Option Nat) :
    ∀ a b, ascOf f a b = true ∨ ascOf f b a = true :=
  fun a b => optAscLe_total (f a) (f b)

theorem descOf_trans (f : α → Option Nat) :
    ∀ a b c, descOf f a b = true → descOf f b c = true → descOf f a c = true :=
  fun _ _ _ h1 h2 => optDescLe_trans h1 h2

theorem descOf_total (f : α → Option Nat) :
    ∀ a b, descOf f a b = true ∨ descOf f b a = true :=
  fun a b => optDescLe_total (f a) (f b)

theorem optAscLe_eq_fLt_or_eq (x y : Option Nat) :
    optAscLe x y = (fLt x y || decide (x = y)) := by
  cases x with
  | none =>
    cases y with
    | none => rfl
    | some b => rfl
  | some a =>
    cases y with
    | none => rfl
    | some b =>
      simp only [optAscLe, fLt, Option.some.injEq]
      by_cases hlt : a < b
      · simp [hlt, Nat.le_of_lt hlt]
      · by_cases heq : a = b
        · simp [heq]
        · have hle : ¬a ≤ b := by omega
          simp [hlt, heq, hle]

theorem fLt_irrefl (x : Option Nat) : fLt x x = false := by
  cases x <;> simp [fLt]

theorem fLt_asymm {x y : Option Nat} (h : fLt x y = true) : fLt y x = false := by
  cases x <;> cases y <;> simp_all [fLt] <;> omega

theorem fLt_trans {x y z : Option Nat} (h1 : fLt x y = true) (h2 : fLt y z = true) :
    fLt x z = true := by
  cases x <;> cases y <;> cases z <;> simp_all [fLt] <;> omega

theorem fLt_trichot (x y : Option Nat) :
    fLt x y = true ∨ x = y ∨ fLt y x = true := by
  cases x <;> cases y <;> simp [fLt] <;> omega

/-! ## Pipeline helper lemmas -/

theorem build_eq (p : String → Option Nat) (df : List Record) :
    build p df = sSort (descLe p) (dedupLinked p df ++ dedupLinkless p df) := by
  cases df with
  | nil => rfl
  | cons a l => rfl

theorem mem_dedupLinked {p : String → Option Nat} {df : List Record} {r : Record}
    (h : r ∈ dedupLinked p df) :
    r ∈ df ∧ validSummary r = true ∧ hasLink r = true := by
  have h1 := mem_keepLast h
  have h2 := List.mem_filter.mp h1
  have h3 := List.mem_filter.mp (mem_sSort.mp h2.1)
  exact ⟨h3.1, h3.2, h2.2⟩

theorem mem_dedupLinkless {p : String → Option Nat} {df : List Record} {r : Record}
    (h : r ∈ dedupLinkless p df) :
    r ∈ df ∧ validSummary r = true ∧ hasLink r = false := by
  have h1 := mem_keepLast h
  have h2 := List.mem_filter.mp h1
  have h3 := List.mem_filter.mp (mem_sSort.mp h2.1)
  exact ⟨h3.1, h3.2, by simpa using h2.2⟩

theorem mem_build_decomp {p : String → Option Nat} {df : List Record} {r : Record}
    (h : r ∈ build p df) : r ∈ df ∧ validSummary r = true := by
  rw [build_eq] at h
  rcases List.mem_append.mp (mem_sSort.mp h) with h' | h'
  · exact ⟨(mem_dedupLinked h').1, (mem_dedupLinked h').2.1⟩
  · exact ⟨(mem_dedupLinkless h').1, (mem_dedupLinkless h').2.1⟩

theorem validSummary_iff (r : Record) :
    validSummary r = true ↔
      ¬(strip r.summary = "" ∨ strip r.summary = "nan" ∨ strip r.summary = "None") := by
  simp [validSummary, not_or, and_assoc]

/-! ## Last occurrences, and what every admissible sort outcome agrees on -/

theorem lastWith_eq_none_iff {q : α → Bool} {l : List α} :
    lastWith q l = none ↔ ∀ a ∈ l, q a = false := by
  induction l with
  | nil => simp [lastWith]
  | cons a t ih =>
    cases ht : lastWith q t with
    | some b =>
      simp only [lastWith, ht, Option.elim]
      constructor
      · intro h
        cases h
      · intro h
        have h2 : lastWith q t = none :=
          ih.mpr fun x hx => h x (List.mem_cons_of_mem a hx)
        rw [ht] at h2
        cases h2
    | none =>
      simp only [lastWith, ht, Option.elim]
      have h3 := ih.mp ht
      cases hqa : q a
      · rw [if_neg Bool.false_ne_true]
        constructor
        · intro _ x hx
          rcases List.mem_cons.mp hx with he | hxt
          · rw [he]
            exact hqa
          · exact h3 x hxt
        · intro _
          rfl
      · rw [if_pos rfl]
        constructor
        · intro h
          cases h
        · intro h
          have := h a (List.mem_cons_self a t)
          rw [hqa] at this
          cases this

theorem lastWith_mem {q : α → Bool} :
    ∀ {l : List α} {r : α}, lastWith q l = some r → r ∈ l ∧ q r = true := by
  intro l
  induction l with
  | nil => intro r h; cases h
  | cons a t ih =>
    intro r h
    cases ht : lastWith q t with
    | some b =>
      simp only [lastWith, ht, Option.elim] at h
      rcases ih (ht.trans (congrArg some (Option.some.inj h))) with ⟨h1, h2⟩
      exact ⟨List.mem_cons_of_mem a h1, h2⟩
    | none =>
      simp only [lastWith, ht, Option.elim] at h
      cases hqa : q a
      · rw [hqa, if_neg Bool.false_ne_true] at h
        cases h
      · rw [hqa, if_pos rfl] at h
        have he := Option.some.inj h
        exact ⟨he ▸ List.mem_cons_self a t, he ▸ hqa⟩

theorem lastWith_filter {q g : α → Bool} (hqg : ∀ a, q a = true → g a = true) :
    ∀ l : List α, lastWith q (l.filter g) = lastWith q l := by
  intro l
  induction l with
  | nil => rfl
  | cons a t ih =>
    cases hg : g a
    · have hqa : q a = false := by
        cases hq : q a
        · rfl
        · rw [hqg a hq] at hg
          cases hg
      rw [List.filter_cons_of_neg (by simp [hg])]
      rw [ih]
      cases ht : lastWith q t
      · simp only [lastWith, ht, Option.elim, hqa, if_neg Bool.false_ne_true]
      · simp only [lastWith, ht, Option.elim]
    · rw [List.filter_cons_of_pos (by simp [hg])]
      simp only [lastWith, ih]

theorem keepLast_lastWith [DecidableEq κ] {k : α → κ} :
    ∀ {l : List α} {r : α}, r ∈ keepLast k l →
      lastWith (fun a => decide (k a = k r)) l = some r := by
  intro l
  induction l with
  | nil => intro r h; cases h
  | cons b t ih =>
    intro r h
    simp only [keepLast] at h
    split at h
    case isTrue hc =>
      have h2 := ih h
      simp only [lastWith, h2, Option.elim]
    case isFalse hc =>
      rcases List.mem_cons.mp h with he | h'
      · have hnone : lastWith (fun a => decide (k a = k r)) t = none := by
          rw [lastWith_eq_none_iff]
          intro x hx
          refine decide_eq_false ?_
          intro hkx
          exact hc (List.any_eq_true.mpr ⟨x, hx, by simp [hkx, ← he]⟩)
        simp only [lastWith, hnone, Option.elim]
        rw [he]
        simp
      · have h2 := ih h'
        simp only [lastWith, h2, Option.elim]

theorem lastWith_none_class {f : α → Option Nat} {le : α → α → Bool} {q : α → Bool}
    (hnone : ∀ a b, f a = none → le a b = true → f b = none) :
    ∀ {out : List α}, out.Pairwise (fun a b => le a b = true) →
      (∃ x ∈ out, q x = true ∧ f x = none) →
      ∃ r, lastWith q out = some r ∧ f r = none ∧
        lastWith (fun a => q a && (f a).isNone) out = some r := by
  intro out
  induction out with
  | nil =>
    intro _ hex
    rcases hex with ⟨x, hx, _⟩
    cases hx
  | cons a t ih =>
    intro hpw hex
    have hpw' := List.pairwise_cons.mp hpw
    by_cases hext : ∃ x ∈ t, q x = true ∧ f x = none
    · rcases ih hpw'.2 hext with ⟨r, h1, h2, h3⟩
      exact ⟨r, by simp only [lastWith, h1, Option.elim], h2,
             by simp only [lastWith, h3, Option.elim]⟩
    · rcases hex with ⟨x, hx, hqx, hfx⟩
      rcases List.mem_cons.mp hx with he | hxt
      · have hqa : q a = true := he ▸ hqx
        have hfa : f a = none := he ▸ hfx
        have hallnone : ∀ b ∈ t, f b = none := fun b hb => hnone a b hfa (hpw'.1 b hb)
        have ht : lastWith q t = none := by
          rw [lastWith_eq_none_iff]
          intro b hb
          cases hqb : q b
          · rfl
          · exact absurd ⟨b, hb, hqb, hallnone b hb⟩ hext
        have ht2 : lastWith (fun c => q c && (f c).isNone) t = none := by
          rw [lastWith_eq_none_iff]
          intro b hb
          cases hqb : q b
          · simp [hqb]
          · exact absurd ⟨b, hb, hqb, hallnone b hb⟩ hext
        refine ⟨a, ?_, hfa, ?_⟩
        · simp [lastWith, ht, Option.elim, hqa]
        · simp [lastWith, ht2, Option.elim, hqa, hfa]
      · exact absurd ⟨x, hxt, hqx, hfx⟩ hext

theorem lastWith_le {le : α → α → Bool} {q : α → Bool} :
    ∀ {out : List α}, out.Pairwise (fun a b => le a b = true) →
      ∀ {r}, lastWith q out = some r → ∀ x ∈ out, q x = true → x = r ∨ le x r = true := by
  intro out
  induction out with
  | nil =>
    intro _ r h
    cases h
  | cons a t ih =>
    intro hpw r h x hx hqx
    have hpw' := List.pairwise_cons.mp hpw
    cases ht : lastWith q t with
    | some b =>
      have hrb : b = r := by
        simp only [lastWith, ht, Option.elim] at h
        exact Option.some.inj h
      rcases List.mem_cons.mp hx with he | hxt
      · right
        have hbt := (lastWith_mem ht).1
        rw [he, ← hrb]
        exact hpw'.1 b hbt
      · exact ih hpw'.2 (hrb ▸ ht) x hxt hqx
    | none =>
      simp only [lastWith, ht, Option.elim] at h
      cases hqa : q a
      · rw [hqa, if_neg Bool.false_ne_true] at h
        cases h
      · rw [hqa, if_pos rfl] at h
        have hra := Option.some.inj h
        rcases List.mem_cons.mp hx with he | hxt
        · left
          rw [he, hra]
        · exact absurd hqx (by simpa using (lastWith_eq_none_iff.mp ht) x hxt)

theorem filter_key_singleton [DecidableEq κ] {k : α → κ} :
    ∀ {l : List α}, l.Pairwise (fun x y => k x ≠ k y) →
      ∀ {r : α} {c : κ}, r ∈ l → k r = c →
      l.filter (fun x => decide (k x = c)) = [r] := by
  intro l
  induction l with
  | nil =>
    intro _ r c h
    cases h
  | cons a t ih =>
    intro hpw r c hr hrc
    have hpw' := List.pairwise_cons.mp hpw
    rcases List.mem_cons.mp hr with he | hrt
    · rw [List.filter_cons_of_pos (by simp [← he, hrc])]
      have h0 : t.filter (fun x => decide (k x = c)) = [] := by
        rw [List.filter_eq_nil_iff]
        intro x hx
        simp only [decide_eq_true_eq]
        intro hkx
        exact hpw'.1 x hx (by rw [hkx, ← hrc, he])
      rw [h0, he]
    · have hka : ¬(k a = c) := fun hh => hpw'.1 r hrt (hh.trans hrc.symm)
      rw [List.filter_cons_of_neg (by simp [hka])]
      exact ih hpw'.2 hrt hrc

theorem optAscLe_refl (x : Option Nat) : optAscLe x x = true := by
  cases x <;> simp [optAscLe]

theorem optAscLe_antisymm {x y : Option Nat} (h1 : optAscLe x y = true)
    (h2 : optAscLe y x = true) : x = y := by
  cases x <;> cases y <;> simp_all [optAscLe] <;> omega

theorem optDescLe_antisymm {x y : Option Nat} (h1 : optDescLe x y = true)
    (h2 : optDescLe y x = true) : x = y := by
  cases x <;> cases y <;> simp_all [optDescLe] <;> omega

theorem optAscLe_none_left {x : Option Nat} (h : optAscLe none x = true) : x = none := by
  cases x
  · rfl
  · cases h

theorem optDescLe_none_left {x : Option Nat} (h : optDescLe none x = true) : x = none := by
  cases x
  · rfl
  · cases h

/-- The stable insertion sort is one admissible outcome of the unstable
ascending `sort_values`. -/
theorem sortSpec_sSort_asc (f : α → Option Nat) (l : List α) :
    SortSpec f (ascOf f) l (sSort (ascOf f) l) :=
  ⟨sSort_perm _ _, sSort_pairwise (ascOf_trans f) (ascOf_total f) l,
   filter_sSort_tied (fun a b ha hb => by
     show optAscLe (f a) (f b) = true
     rw [Option.isNone_iff_eq_none.mp ha, Option.isNone_iff_eq_none.mp hb]
     rfl) l⟩

/-- The stable insertion sort is one admissible outcome of the unstable
descending `sort_values`. -/
theorem sortSpec_sSort_desc (f : α → Option Nat) (l : List α) :
    SortSpec f (descOf f) l (sSort (descOf f) l) :=
  ⟨sSort_perm _ _, sSort_pairwise (descOf_trans f) (descOf_total f) l,
   filter_sSort_tied (fun a b ha hb => by
     show optDescLe (f a) (f b) = true
     rw [Option.isNone_iff_eq_none.mp ha, Option.isNone_iff_eq_none.mp hb]
     rfl) l⟩

theorem sorted_nones_unique {f : α → Option Nat} {le : α → α → Bool}
    (hanti : ∀ a b, le a b = true → le b a = true → f a = f b) :
    ∀ {o₁ o₂ : List α},
      (∀ g ∈ o₁, ∀ h ∈ o₁, f g = f h → (f g).isSome = true → g = h) →
      List.Perm o₁ o₂ →
      o₁.Pairwise (fun a b => le a b = true) →
      o₂.Pairwise (fun a b => le a b = true) →
      o₁.filter (fun a => (f a).isNone) = o₂.filter (fun a => (f a).isNone) →
      o₁ = o₂ := by
  intro o₁
  induction o₁ with
  | nil =>
    intro o₂ _ hp _ _ _
    exact (hp.symm.eq_nil).symm
  | cons a t₁ ih =>
    intro o₂ hnt hp hp₁ hp₂ hfn
    cases o₂ with
    | nil => exact absurd hp.eq_nil (by simp)
    | cons b t₂ =>
      have hab : a = b := by
        have hao₂ : a ∈ b :: t₂ := hp.subset (List.mem_cons_self a t₁)
        have hbo₁ : b ∈ a :: t₁ := hp.symm.subset (List.mem_cons_self b t₂)
        rcases List.mem_cons.mp hao₂ with he | hat₂
        · exact he
        rcases List.mem_cons.mp hbo₁ with he | hbt₁
        · exact he.symm
        have h1 : le a b = true := (List.pairwise_cons.mp hp₁).1 b hbt₁
        have h2 : le b a = true := (List.pairwise_cons.mp hp₂).1 a hat₂
        have hfe : f a = f b := hanti a b h1 h2
        cases hsome : (f a).isSome
        · have hfa : f a = none := by
            cases hv : f a
            · rfl
            · rw [hv] at hsome
              cases hsome
          have hfb : f b = none := hfe ▸ hfa
          rw [List.filter_cons_of_pos (by simp [hfa]),
            List.filter_cons_of_pos (by simp [hfb])] at hfn
          exact (List.cons.injEq _ _ _ _ ▸ hfn).1
        · exact hnt a (List.mem_cons_self a t₁) b hbo₁ hfe hsome
      subst hab
      have hp' : t₁.Perm t₂ := hp.cons_inv
      have hfn' : t₁.filter (fun c => (f c).isNone) = t₂.filter (fun c => (f c).isNone) := by
        cases hna : (f a).isNone
        · rwa [List.filter_cons_of_neg (by simp [hna]),
            List.filter_cons_of_neg (by simp [hna])] at hfn
        · rw [List.filter_cons_of_pos (by simp [hna]),
            List.filter_cons_of_pos (by simp [hna])] at hfn
          exact (List.cons.injEq _ _ _ _ ▸ hfn).2
      have ht := ih (fun g hg h hh =>
          hnt g (List.mem_cons_of_mem a hg) h (List.mem_cons_of_mem a hh))
        hp' (List.pairwise_cons.mp hp₁).2 (List.pairwise_cons.mp hp₂).2 hfn'
      rw [ht]

/-- When no two distinct rows share an equal parseable key, every admissible
sort outcome is the same list: the quicksort's freedom is confined to ties. -/
theorem sortSpec_unique {f : α → Option Nat} {le : α → α → Bool}
    (hanti : ∀ a b, le a b = true → le b a = true → f a = f b)
    {l o₁ o₂ : List α}
    (hnt : ∀ g ∈ l, ∀ h ∈ l, f g = f h → (f g).isSome = true → g = h)
    (h₁ : SortSpec f le l o₁) (h₂ : SortSpec f le l o₂) : o₁ = o₂ :=
  sorted_nones_unique hanti
    (fun g hg h hh => hnt g (h₁.1.subset hg) h (h₁.1.subset hh))
    (h₁.1.trans h₂.1.symm) h₁.2.1 h₂.2.1 (h₁.2.2.trans h₂.2.2.symm)

/-! ## Claim theorems -/

/-- C9: every row of the canonical output is one of the input rows, with all
seven required-field values unchanged — `build_latest` only selects,
deduplicates and reorders records, it never edits a surviving record
(membership of the whole `Record` value asserts all seven fields at once). -/
theorem frame_output_rows_unchanged (p : String → Option Nat) (df : List Record) :
    ∀ r ∈ build p df, r ∈ df :=
  fun _ hr => (mem_build_decomp hr).1

theorem frame_output_rows_unchanged_witness :
    mkRec "t" "http://x" "s" "1" ∈ build natTs [mkRec "t" "http://x" "s" "1"] ∧
      mkRec "t" "http://x" "s" "1" ∈ [mkRec "t" "http://x" "s" "1"] :=
  ⟨by decide,
   frame_output_rows_unchanged natTs [mkRec "t" "http://x" "s" "1"]
     (mkRec "t" "http://x" "s" "1") (by decide)⟩

/-- C7: the validator keeps exactly the records whose trimmed summary is
neither empty nor a stringified-null placeholder (`"nan"`, `"None"`); whether
a record is dropped depends on no field other than `summary`; and every row
of the canonical output has a non-empty summary. -/
theorem validator_drops_exactly_null_summaries (p : String → Option Nat) (df : List Record) :
    (∀ r, r ∈ df.filter validSummary ↔
        r ∈ df ∧ ¬(strip r.summary = "" ∨ strip r.summary = "nan" ∨ strip r.summary = "None"))
    ∧ (∀ r r', r.summary = r'.summary → validSummary r = validSummary r')
    ∧ (∀ r ∈ build p df, r.summary ≠ "") := by
  refine ⟨?_, ?_, ?_⟩
  · intro r
    rw [List.mem_filter, validSummary_iff]
  · intro r r' h
    simp [validSummary, h]
  · intro r hr he
    have hv := (validSummary_iff r).mp (mem_build_decomp hr).2
    exact hv (Or.inl (by rw [he]; rfl))

theorem validator_drops_exactly_null_summaries_witness :
    (mkRec "t" "" "good" "1" ∈ [mkRec "t" "" "good" "1",
        mkRec "u" "" " nan " "2"].filter validSummary ∧
      mkRec "u" "" " nan " "2" ∉ [mkRec "t" "" "good" "1",
        mkRec "u" "" " nan " "2"].filter validSummary) ∧
    (∀ r ∈ build natTs [mkRec "t" "" "good" "1"], r.summary ≠ "") := by
  have h := validator_drops_exactly_null_summaries natTs
    [mkRec "t" "" "good" "1", mkRec "u" "" " nan " "2"]
  refine ⟨⟨(h.1 _).mpr (by decide), fun hm => ?_⟩,
    (validator_drops_exactly_null_summaries natTs [mkRec "t" "" "good" "1"]).2.2⟩
  have := (h.1 _).mp hm
  revert this
  decide

/-- C5: the canonical output is pairwise ordered by the descending timestamp
comparison (so adjacent parseable rows are non-increasing and no parseable
row follows an unparseable one); the rows with unparseable `collected_at`
appear in exactly their relative order in the deduplicated sequence the
merger received (stable sort); and the final sort drops no record — the
output is a permutation of the deduplicated sequence. -/
theorem merger_ordering (p : String → Option Nat) (df : List Record) :
    ((build p df).Pairwise (fun a b => descLe p a b = true))
    ∧ ((build p df).filter (fun r => (p r.collected_at).isNone) =
        (dedupLinked p df ++ dedupLinkless p df).filter
          (fun r => (p r.collected_at).isNone))
    ∧ List.Perm (build p df) (dedupLinked p df ++ dedupLinkless p df) := by
  rw [build_eq]
  refine ⟨sSort_pairwise (descOf_trans (tsOf p)) (descOf_total (tsOf p)) _, ?_,
    sSort_perm _ _⟩
  refine filter_sSort_tied ?_ _
  intro a b ha hb
  have ha' : p a.collected_at = none := Option.isNone_iff_eq_none.mp ha
  have hb' : p b.collected_at = none := Option.isNone_iff_eq_none.mp hb
  simp [descLe, descOf, tsOf, ha', hb', optDescLe]

theorem hasLink_of_link_eq {r : Record} {L : String} (h : r.link = L)
    (hL : hasLinkStr L = true) : hasLink r = true := by
  rw [hasLink, h]
  exact hL

/-- C6: linked and linkless records are deduplicated independently.  If a
pool contains a validated record `a` with a usable link and a validated
record `b` without one but with the same title and summary, and neither is
shadowed by a later duplicate of its own key, then both survive into the
canonical output as distinct rows — a record with a link is never
deduplicated against a record without one. -/
theorem crossKey_no_collision (p : String → Option Nat) (df : List Record)
    (a b : Record) (ha : a ∈ df) (hb : b ∈ df)
    (hva : validSummary a = true) (hvb : validSummary b = true)
    (hla : hasLink a = true) (hlb : hasLink b = false)
    (htitle : a.title = b.title) (hsum : a.summary = b.summary)
    (hua : ∀ c ∈ df, validSummary c = true → hasLink c = true → c.link = a.link → c = a)
    (hub : ∀ c ∈ df, validSummary c = true → hasLink c = false →
        c.title = b.title → c.summary = b.summary → c = b) :
    a ∈ build p df ∧ b ∈ build p df ∧ a ≠ b := by
  have hSa : a ∈ List.filter hasLink (sSort (ascLe p) (df.filter validSummary)) :=
    List.mem_filter.mpr ⟨mem_sSort.mpr (List.mem_filter.mpr ⟨ha, hva⟩), hla⟩
  have hda : a ∈ dedupLinked p df := by
    refine keepLast_mem_of_unique hSa ?_
    intro y hy hky
    have h2 := List.mem_filter.mp hy
    have h3 := List.mem_filter.mp (mem_sSort.mp h2.1)
    exact hua y h3.1 h3.2 h2.2 hky
  have hSb : b ∈ List.filter (fun r => !hasLink r)
      (sSort (ascLe p) (df.filter validSummary)) :=
    List.mem_filter.mpr ⟨mem_sSort.mpr (List.mem_filter.mpr ⟨hb, hvb⟩), by simp [hlb]⟩
  have hdb : b ∈ dedupLinkless p df := by
    refine keepLast_mem_of_unique hSb ?_
    intro y hy hky
    have h2 := List.mem_filter.mp hy
    have h3 := List.mem_filter.mp (mem_sSort.mp h2.1)
    have hk1 : y.title = b.title := congrArg Prod.fst hky
    have hk2 : y.summary = b.summary := congrArg Prod.snd hky
    exact hub y h3.1 h3.2 (by simpa using h2.2) hk1 hk2
  refine ⟨?_, ?_, ?_⟩
  · rw [build_eq]
    exact mem_sSort.mpr (List.mem_append_left _ hda)
  · rw [build_eq]
    exact mem_sSort.mpr (List.mem_append_right _ hdb)
  · intro h
    rw [h] at hla
    rw [hla] at hlb
    simp at hlb

theorem crossKey_no_collision_witness :
    mkRec "t" "http://y" "sum" "3" ∈
        build natTs [mkRec "t" "http://y" "sum" "3", mkRec "t" "" "sum" "4"] ∧
      mkRec "t" "" "sum" "4" ∈
        build natTs [mkRec "t" "http://y" "sum" "3", mkRec "t" "" "sum" "4"] ∧
      mkRec "t" "http://y" "sum" "3" ≠ mkRec "t" "" "sum" "4" :=
  crossKey_no_collision natTs
    [mkRec "t" "http://y" "sum" "3", mkRec "t" "" "sum" "4"]
    (mkRec "t" "http://y" "sum" "3") (mkRec "t" "" "sum" "4")
    (by decide) (by decide) (by decide) (by decide) (by decide) (by decide)
    (by decide) (by decide) (by decide) (by decide)

/-- C1, counterexample to the tie-break as claimed: the pool holds two
validated records with the same non-empty link, `r1` with the parseable
timestamp `1` and `r2` with an unparseable one.  The claim says the survivor
is the record with the latest `collected_at` of the group — here `r1`, the
only one with a timestamp — but the code sorts NaT rows after all parseable
rows before `drop_duplicates(keep="last")`, so the unparseable-timestamp
record `r2` survives instead. -/
theorem linked_dedup_latest_counterexample :
    build natTs [mkRec "a" "http://x" "s1" "1", mkRec "a" "http://x" "s2" "zzz"]
        = [mkRec "a" "http://x" "s2" "zzz"] ∧
      natTs (mkRec "a" "http://x" "s1" "1").collected_at = some 1 ∧
      natTs (mkRec "a" "http://x" "s2" "zzz").collected_at = none ∧
      mkRec "a" "http://x" "s1" "1" ≠ mkRec "a" "http://x" "s2" "zzz" := by
  refine ⟨by decide, rfl, rfl, by decide⟩

/-- C1 (amended): in every admissible execution, among the validated records
sharing a non-empty link `L` exactly one appears in the canonical output.  Its
parsed `collected_at` is an upper bound of the whole group under the
NaT-greatest order `optAscLe`, so when every group member has a parseable
timestamp the survivor carries the latest `collected_at` of the group — but
which of several records tied at that latest timestamp survives is not
determined by the program (the default quicksort is unstable, so there is no
last-loaded tie-break); and when the group contains unparseable members the
survivor is exactly the last-loaded valid unparseable member (NaT rows sort
after every parseable row and keep their load order), not a record with the
latest parseable timestamp. -/
theorem linked_dedup_survivor (p : String → Option Nat) (df final : List Record)
    (L : String) (hL : hasLinkStr L = true)
    (hb : BuildRun p df final)
    (hex : ∃ g ∈ df.filter validSummary, g.link = L) :
    ∃ r, final.filter (fun x => decide (x.link = L)) = [r] ∧
      r ∈ df.filter validSummary ∧ r.link = L ∧
      (∀ g ∈ df.filter validSummary, g.link = L →
        optAscLe (tsOf p g) (tsOf p r) = true) ∧
      ((∃ g ∈ df.filter validSummary, g.link = L ∧ tsOf p g = none) →
        lastWith (fun g => decide (g.link = L) && (tsOf p g).isNone)
          (df.filter validSummary) = some r) := by
  rcases hex with ⟨g₀, hg₀, hg₀L⟩
  have hne : df.isEmpty = false := by
    cases hd : df
    · rw [hd] at hg₀
      simp at hg₀
    · rfl
  rw [BuildRun, hne, if_neg Bool.false_ne_true] at hb
  rcases hb with ⟨asc, hasc, hfin⟩
  obtain ⟨hascPerm, hascPw, hascN⟩ := hasc
  have hg₀asc : g₀ ∈ asc := hascPerm.mem_iff.mpr hg₀
  have hg₀link : hasLink g₀ = true := hasLink_of_link_eq hg₀L hL
  have hexK : ∃ x ∈ List.filter hasLink asc, (fun r : Record => r.link) x = L :=
    ⟨g₀, List.mem_filter.mpr ⟨hg₀asc, hg₀link⟩, hg₀L⟩
  obtain ⟨r, hrKeep, hrL⟩ := keepLast_exists_key hexK
  have hrL' : r.link = L := hrL
  have hlastF := keepLast_lastWith hrKeep
  have hql : (fun a : Record => decide (a.link = r.link))
      = fun a : Record => decide (a.link = L) := by
    funext a
    rw [hrL']
  rw [hql] at hlastF
  have hlift : ∀ a : Record, decide (a.link = L) = true → hasLink a = true := by
    intro a ha
    exact hasLink_of_link_eq (of_decide_eq_true ha) hL
  rw [lastWith_filter hlift asc] at hlastF
  have hrmem : r ∈ df.filter validSummary :=
    hascPerm.mem_iff.mp (lastWith_mem hlastF).1
  have hmax : ∀ g ∈ df.filter validSummary, g.link = L →
      optAscLe (tsOf p g) (tsOf p r) = true := by
    intro g hg hgL
    have hgasc : g ∈ asc := hascPerm.mem_iff.mpr hg
    rcases lastWith_le hascPw hlastF g hgasc (decide_eq_true hgL) with he | hle
    · rw [he]
      exact optAscLe_refl _
    · exact hle
  have hnonecase : (∃ g ∈ df.filter validSummary, g.link = L ∧ tsOf p g = none) →
      lastWith (fun g => decide (g.link = L) && (tsOf p g).isNone)
        (df.filter validSummary) = some r := by
    intro hgn
    rcases hgn with ⟨g₁, hg₁, hg₁L, hg₁n⟩
    have hnone : ∀ a b : Record, tsOf p a = none → ascLe p a b = true →
        tsOf p b = none := by
      intro a b ha hab
      have h2 : optAscLe (tsOf p a) (tsOf p b) = true := hab
      rw [ha] at h2
      exact optAscLe_none_left h2
    have hgex : ∃ x ∈ asc, (fun g : Record => decide (g.link = L)) x = true ∧
        tsOf p x = none :=
      ⟨g₁, hascPerm.mem_iff.mpr hg₁, decide_eq_true hg₁L, hg₁n⟩
    obtain ⟨r', h1', h2', h3'⟩ := lastWith_none_class hnone hascPw hgex
    have hrr : r' = r := Option.some.inj (h1'.symm.trans hlastF)
    subst hrr
    have hlift2 : ∀ a : Record, (decide (a.link = L) && (tsOf p a).isNone) = true →
        (tsOf p a).isNone = true := by
      intro a ha
      simp only [Bool.and_eq_true] at ha
      exact ha.2
    rw [← lastWith_filter hlift2 asc, hascN, lastWith_filter hlift2] at h3'
    exact h3'
  obtain ⟨hfinPerm, hfinPw, hfinN⟩ := hfin
  have h1 : (dedupLinkedOn asc).filter (fun x => decide (x.link = L)) = [r] :=
    filter_key_singleton (keepLast_keys_nodup _ _) hrKeep hrL'
  have h2 : (dedupLinklessOn asc).filter (fun x => decide (x.link = L)) = [] := by
    rw [List.filter_eq_nil_iff]
    intro x hx
    simp only [decide_eq_true_eq]
    intro hxL
    have hxl : hasLink x = true := hasLink_of_link_eq hxL hL
    have hxm := (List.mem_filter.mp (mem_keepLast hx)).2
    rw [hxl] at hxm
    simp at hxm
  have hperm : List.Perm (final.filter (fun x => decide (x.link = L)))
      (((dedupLinkedOn asc) ++ (dedupLinklessOn asc)).filter
        (fun x => decide (x.link = L))) :=
    hfinPerm.filter _
  rw [List.filter_append, h1, h2, List.append_nil] at hperm
  exact ⟨r, List.perm_singleton.mp hperm, hrmem, hrL', hmax, hnonecase⟩

theorem linked_dedup_survivor_witness :
    hasLinkStr "http://x" = true ∧
    BuildRun natTs [mkRec "a" "http://x" "s1" "1", mkRec "a" "http://x" "s2" "zzz"]
      [mkRec "a" "http://x" "s2" "zzz"] ∧
    (∃ g ∈ [mkRec "a" "http://x" "s1" "1",
        mkRec "a" "http://x" "s2" "zzz"].filter validSummary, g.link = "http://x") ∧
    (∃ r, ([mkRec "a" "http://x" "s2" "zzz"] : List Record).filter
          (fun x => decide (x.link = "http://x")) = [r] ∧
      r ∈ [mkRec "a" "http://x" "s1" "1",
          mkRec "a" "http://x" "s2" "zzz"].filter validSummary ∧
      r.link = "http://x" ∧
      (∀ g ∈ [mkRec "a" "http://x" "s1" "1",
          mkRec "a" "http://x" "s2" "zzz"].filter validSummary,
        g.link = "http://x" → optAscLe (tsOf natTs g) (tsOf natTs r) = true) ∧
      ((∃ g ∈ [mkRec "a" "http://x" "s1" "1",
          mkRec "a" "http://x" "s2" "zzz"].filter validSummary,
          g.link = "http://x" ∧ tsOf natTs g = none) →
        lastWith (fun g => decide (g.link = "http://x") && (tsOf natTs g).isNone)
          ([mkRec "a" "http://x" "s1" "1",
            mkRec "a" "http://x" "s2" "zzz"].filter validSummary)
          = some r)) := by
  have hne : ([mkRec "a" "http://x" "s1" "1",
      mkRec "a" "http://x" "s2" "zzz"] : List Record).isEmpty = false := rfl
  have hbr : BuildRun natTs
      [mkRec "a" "http://x" "s1" "1", mkRec "a" "http://x" "s2" "zzz"]
      [mkRec "a" "http://x" "s2" "zzz"] := by
    rw [BuildRun, hne, if_neg Bool.false_ne_true]
    exact ⟨[mkRec "a" "http://x" "s1" "1", mkRec "a" "http://x" "s2" "zzz"],
      ⟨by decide, by decide, by decide⟩, ⟨by decide, by decide, by decide⟩⟩
  exact ⟨by decide, hbr,
    ⟨mkRec "a" "http://x" "s1" "1", by decide, by decide⟩,
    linked_dedup_survivor natTs
      [mkRec "a" "http://x" "s1" "1", mkRec "a" "http://x" "s2" "zzz"]
      [mkRec "a" "http://x" "s2" "zzz"] "http://x" (by decide) hbr
      ⟨mkRec "a" "http://x" "s1" "1", by decide, by decide⟩⟩

/-! ## Path order facts and the discovery claim -/

theorem charListLt_connex :
    ∀ {x y : List Char}, charListLt x y = false → charListLt y x = false → x = y := by
  intro x
  induction x with
  | nil =>
    intro y h1 h2
    cases y with
    | nil => rfl
    | cons b bs => simp [charListLt] at h1
  | cons a as ih =>
    intro y h1 h2
    cases y with
    | nil => simp [charListLt] at h2
    | cons b bs =>
      simp only [charListLt] at h1 h2
      by_cases hab : a < b
      · simp [hab] at h1
      · by_cases hba : b < a
        · simp [hab, hba] at h2
        · have hae : a = b := le_antisymm (not_lt.mp hba) (not_lt.mp hab)
          rw [if_neg hab, if_neg hba] at h1
          rw [if_neg hba, if_neg hab] at h2
          rw [hae, ih h1 h2]

theorem charListLt_trans :
    ∀ {x y z : List Char}, charListLt x y = true → charListLt y z = true →
      charListLt x z = true := by
  intro x
  induction x with
  | nil =>
    intro y z h1 h2
    cases y with
    | nil => simp [charListLt] at h1
    | cons b bs =>
      cases z with
      | nil => simp [charListLt] at h2
      | cons c cs => simp [charListLt]
  | cons a as ih =>
    intro y z h1 h2
    cases y with
    | nil => simp [charListLt] at h1
    | cons b bs =>
      cases z with
      | nil => simp [charListLt] at h2
      | cons c cs =>
        simp only [charListLt] at h1 h2 ⊢
        by_cases hab : a < b
        · by_cases hbc : b < c
          · simp [lt_trans hab hbc]
          · by_cases hcb : c < b
            · simp [hab, hbc, hcb] at h2
            · have hbe : b = c := le_antisymm (not_lt.mp hcb) (not_lt.mp hbc)
              simp [hbe ▸ hab]
        · by_cases hba : b < a
          · simp [hab, hba] at h1
          · have hae : a = b := le_antisymm (not_lt.mp hba) (not_lt.mp hab)
            rw [if_neg hab, if_neg hba] at h1
            subst hae
            by_cases hbc : a < c
            · simp [hbc]
            · by_cases hcb : c < a
              · simp [hbc, hcb] at h2
              · rw [if_neg hbc, if_neg hcb] at h2 ⊢
                exact ih h1 h2

theorem strLt_connex {x y : String} (h1 : strLt x y = false) (h2 : strLt y x = false) :
    x = y := by
  cases x with
  | mk dx =>
    cases y with
    | mk dy =>
      have := charListLt_connex (x := dx) (y := dy) h1 h2
      rw [this]

theorem pathLe_trans :
    ∀ {x y z : List String}, pathLe x y = true → pathLe y z = true →
      pathLe x z = true := by
  intro x
  induction x with
  | nil => intro y z h1 h2; rfl
  | cons a as ih =>
    intro y z h1 h2
    cases y with
    | nil => simp [pathLe] at h1
    | cons b bs =>
      cases z with
      | nil => simp [pathLe] at h2
      | cons c cs =>
        simp only [pathLe] at h1 h2 ⊢
        by_cases hab : strLt a b = true
        · by_cases hbc : strLt b c = true
          · have hac : strLt a c = true := charListLt_trans hab hbc
            simp [hac]
          · by_cases hcb : strLt c b = true
            · simp [hab, hbc, hcb] at h2
            · have hbe : b = c := strLt_connex (by simpa using hbc) (by simpa using hcb)
              subst hbe
              simp [hab]
        · by_cases hba : strLt b a = true
          · simp [hab, hba] at h1
          · have hae : a = b := strLt_connex (by simpa using hab) (by simpa using hba)
            subst hae
            rw [if_neg (by simp [hab]), if_neg (by simp [hba])] at h1
            by_cases hac : strLt a c = true
            · simp [hac]
            · by_cases hca : strLt c a = true
              · simp [hac, hca] at h2
              · rw [if_neg (by simp [hac]), if_neg (by simp [hca])] at h2 ⊢
                exact ih h1 h2

theorem pathLe_total : ∀ (x y : List String), pathLe x y = true ∨ pathLe y x = true := by
  intro x
  induction x with
  | nil => intro y; exact Or.inl rfl
  | cons a as ih =>
    intro y
    cases y with
    | nil => exact Or.inr rfl
    | cons b bs =>
      simp only [pathLe]
      by_cases hab : strLt a b = true
      · exact Or.inl (by simp [hab])
      · by_cases hba : strLt b a = true
        · exact Or.inr (by simp [hba])
        · have hae : a = b := strLt_connex (by simpa using hab) (by simpa using hba)
          subst hae
          rcases ih bs with h | h
          · exact Or.inl (by simp [hab, h])
          · exact Or.inr (by simp [hab, h])

/-- C10: `find_source_files` returns exactly the files under the root whose
file name matches `news_data*.csv`, excluding only entries whose base name is
exactly `news_data_latest.csv`, and it returns them pairwise ordered by the
lexicographic path order; in particular any file named `news_data.csv` (the
second output target) is rediscovered as a source. -/
theorem discovery_characterization (fs : List FsEntry) :
    (∀ e, e ∈ findSourceFiles fs ↔
        e ∈ fs ∧ matchesPattern e.name = true ∧ e.name ≠ CANONICAL_FILE)
    ∧ (findSourceFiles fs).Pairwise (fun a b => pathLe (fullPath a) (fullPath b) = true)
    ∧ (∀ e ∈ fs, e.name = "news_data.csv" → e ∈ findSourceFiles fs) := by
  have hmem : ∀ e, e ∈ findSourceFiles fs ↔
      e ∈ fs ∧ matchesPattern e.name = true ∧ e.name ≠ CANONICAL_FILE := by
    intro e
    unfold findSourceFiles
    rw [List.mem_filter, mem_sSort, List.mem_filter]
    constructor
    · rintro ⟨⟨h1, h2⟩, h3⟩
      exact ⟨h1, h2, by simpa using h3⟩
    · rintro ⟨h1, h2, h3⟩
      exact ⟨⟨h1, h2⟩, by simpa using h3⟩
  refine ⟨hmem, ?_, ?_⟩
  · unfold findSourceFiles
    refine List.Pairwise.filter _ ?_
    exact @sSort_pairwise FsEntry (fun a b => pathLe (fullPath a) (fullPath b))
      (fun a b c h1 h2 => pathLe_trans h1 h2)
      (fun a b => pathLe_total (fullPath a) (fullPath b)) _
  · intro e he hn
    refine (hmem e).mpr ⟨he, ?_, ?_⟩
    · rw [hn]
      decide
    · rw [hn, CANONICAL_FILE]
      decide

theorem discovery_characterization_witness :
    FsEntry.mk [] "news_data.csv" (CsvFile.table [] []) ∈
      findSourceFiles
        [FsEntry.mk [] "news_data_latest.csv" (CsvFile.table [] []),
         FsEntry.mk [] "news_data.csv" (CsvFile.table [] []),
         FsEntry.mk ["sub"] "news_data_2024.csv" (CsvFile.table [] []),
         FsEntry.mk [] "other.txt" CsvFile.malformed] :=
  (discovery_characterization
      [FsEntry.mk [] "news_data_latest.csv" (CsvFile.table [] []),
       FsEntry.mk [] "news_data.csv" (CsvFile.table [] []),
       FsEntry.mk ["sub"] "news_data_2024.csv" (CsvFile.table [] []),
       FsEntry.mk [] "other.txt" CsvFile.malformed]).2.2
    (FsEntry.mk [] "news_data.csv" (CsvFile.table [] [])) (by decide) rfl

/-- C3, counterexample: a source file missing required columns is not skipped
— `load_sources` raises `ValueError`, so no rows are loaded (not even from
the valid sibling file listed after it) and the run fails instead of
continuing. -/
theorem loader_skip_counterexample :
    loadSources
        [CsvFile.table ["title"] [],
         CsvFile.table REQUIRED_COLUMNS [["t", "http://x", "s", "P", "R", "FLAT", "1"]]]
      = .error "Missing columns" := by
  rfl

/-- C3 (amended): a discovered file that is unparseable as tabular data or is
missing any of the seven required columns is fatal: `load_sources` raises,
no rows from any file are returned, and the run aborts rather than skipping
the file and continuing. -/
theorem loader_missing_columns_fatal (files : List CsvFile)
    (h : ∃ f ∈ files, goodFile f = false) :
    ∃ msg, loadSources files = .error msg := by
  induction files with
  | nil => simp at h
  | cons f rest ih =>
    cases f with
    | malformed => exact ⟨"read_csv failed", rfl⟩
    | table cols rows =>
      by_cases hc : REQUIRED_COLUMNS.all (fun c => cols.contains c) = true
      · have h' : ∃ g ∈ rest, goodFile g = false := by
          rcases h with ⟨g, hg, hbad⟩
          rcases List.mem_cons.mp hg with he | hg'
          · rw [he] at hbad
            rw [goodFile] at hbad
            rw [hbad] at hc
            cases hc
          · exact ⟨g, hg', hbad⟩
        rcases ih h' with ⟨msg, hmsg⟩
        refine ⟨msg, ?_⟩
        rw [loadSources, if_pos hc, hmsg]
      · refine ⟨"Missing columns", ?_⟩
        rw [loadSources, if_neg hc]

theorem loader_missing_columns_fatal_witness :
    (∃ f ∈ [CsvFile.table ["title"] []], goodFile f = false) ∧
      ∃ msg, loadSources [CsvFile.table ["title"] []] = .error msg :=
  ⟨by decide, loader_missing_columns_fatal [CsvFile.table ["title"] []] (by decide)⟩

/-- C8, counterexample: with zero *usable* sources — here one discovered file
that is missing required columns — the run does not succeed with a
header-only output; it fails with the loader's error and writes nothing. -/
theorem empty_usable_counterexample :
    mainRun natTs [FsEntry.mk [] "news_data_bad.csv" (CsvFile.table ["title"] [])]
      = .error "Missing columns" := by
  rfl

/-- C8 (amended): with zero *discovered* source files the run succeeds,
writes the well-formed header-only canonical file (the seven required column
names and no data rows) to both output targets, and reports the zero counts
on standard output. -/
theorem empty_discovery_header_only (p : String → Option Nat) (fs : List FsEntry)
    (h : findSourceFiles fs = []) :
    mainRun p fs =
      .ok { written := [("news_data.csv", (REQUIRED_COLUMNS, [])),
                        ("news_data_latest.csv", (REQUIRED_COLUMNS, []))],
            stdout := ["source_files=0", "rows_written=0"] } := by
  have hb : build p ([] : List Record) = [] := by
    rw [build]
    simp
  unfold mainRun
  rw [h]
  simp only [List.map_nil, loadSources, List.length_nil, hb]
  rfl

theorem empty_discovery_header_only_witness :
    findSourceFiles [FsEntry.mk [] "readme.txt" CsvFile.malformed] = [] ∧
      mainRun natTs [FsEntry.mk [] "readme.txt" CsvFile.malformed] =
        .ok { written := [("news_data.csv", (REQUIRED_COLUMNS, [])),
                          ("news_data_latest.csv", (REQUIRED_COLUMNS, []))],
              stdout := ["source_files=0", "rows_written=0"] } :=
  ⟨rfl, empty_discovery_header_only natTs [FsEntry.mk [] "readme.txt" CsvFile.malformed] rfl⟩

/-- C4, counterexample: with both targets holding stale content and the
second target unwritable, the writer loop updates the first target and then
fails.  The run does report failure, but the disk is left with a strict
subset of the targets updated — `news_data.csv` holds the new content while
`news_data_latest.csv` still holds the old one — so writing is not
all-or-none. -/
theorem writer_all_or_none_counterexample :
    (writeSeq failSecond demoContent demoDisk OUTPUT_FILES).2 = false
    ∧ (writeSeq failSecond demoContent demoDisk OUTPUT_FILES).1.lookup
        "news_data.csv" = some demoContent
    ∧ (writeSeq failSecond demoContent demoDisk OUTPUT_FILES).1.lookup
        "news_data_latest.csv" = some demoOldContent
    ∧ demoContent ≠ demoOldContent := by
  refine ⟨rfl, rfl, rfl, by decide⟩

/-- C4 (amended): each successful write is a full replacement of the target's
prior content, and any failing write makes the run report failure; but the
writes happen one target at a time, so exactly the targets before the first
failing one remain updated — a failure on a later target leaves the earlier
targets already overwritten rather than rolling them back. -/
theorem writer_sequential_characterization (canWrite : String → Bool) (c : γ)
    (disk : List (String × γ)) (ts : List String) :
    writeSeq canWrite c disk ts =
        ((ts.takeWhile canWrite).foldl (fun d t => store d t c) disk, ts.all canWrite)
    ∧ (∀ t c', (store disk t c').lookup t = some c') := by
  constructor
  · induction ts generalizing disk with
    | nil => rfl
    | cons t ts ih =>
      by_cases h : canWrite t = true
      · rw [writeSeq, if_pos h, ih, List.takeWhile_cons, if_pos h]
        simp [h]
      · rw [writeSeq, if_neg h, List.takeWhile_cons,
          if_neg h, List.all_cons]
        simp [Bool.eq_false_iff.mpr h]
  · intro t c'
    simp [store, List.lookup]

/-! ## Rank order facts -/

theorem rkLe_iff {f : α → Option Nat} {x y : Nat × α} :
    rkLe f x y = true ↔
      (fLt (f x.2) (f y.2) = true ∨ (f x.2 = f y.2 ∧ x.1 ≤ y.1)) := by
  simp [rkLe]

theorem rkLt_iff {f : α → Option Nat} {x y : Nat × α} :
    rkLt f x y = true ↔
      (fLt (f x.2) (f y.2) = true ∨ (f x.2 = f y.2 ∧ x.1 < y.1)) := by
  simp [rkLt]

theorem rkLe_trans {f : α → Option Nat} :
    ∀ x y z : Nat × α, rkLe f x y = true → rkLe f y z = true → rkLe f x z = true := by
  intro x y z h1 h2
  rw [rkLe_iff] at h1 h2 ⊢
  rcases h1 with h1 | ⟨he1, ht1⟩
  · rcases h2 with h2 | ⟨he2, ht2⟩
    · exact Or.inl (fLt_trans h1 h2)
    · exact Or.inl (by rw [← he2]; exact h1)
  · rcases h2 with h2 | ⟨he2, ht2⟩
    · exact Or.inl (by rw [he1]; exact h2)
    · exact Or.inr ⟨he1.trans he2, le_trans ht1 ht2⟩

theorem rkLe_total {f : α → Option Nat} :
    ∀ x y : Nat × α, rkLe f x y = true ∨ rkLe f y x = true := by
  intro x y
  rcases fLt_trichot (f x.2) (f y.2) with h | h | h
  · exact Or.inl (rkLe_iff.mpr (Or.inl h))
  · rcases Nat.le_total x.1 y.1 with ht | ht
    · exact Or.inl (rkLe_iff.mpr (Or.inr ⟨h, ht⟩))
    · exact Or.inr (rkLe_iff.mpr (Or.inr ⟨h.symm, ht⟩))
  · exact Or.inr (rkLe_iff.mpr (Or.inl h))

theorem rkLt_asymm {f : α → Option Nat} {x y : Nat × α}
    (h1 : rkLt f x y = true) (h2 : rkLt f y x = true) : False := by
  rw [rkLt_iff] at h1 h2
  rcases h1 with h1 | ⟨he1, ht1⟩ <;> rcases h2 with h2 | ⟨he2, ht2⟩
  · rw [fLt_asymm h1] at h2
    cases h2
  · rw [he2] at h1
    rw [fLt_irrefl] at h1
    cases h1
  · rw [he1] at h2
    rw [fLt_irrefl] at h2
    cases h2
  · omega

theorem rkLt_irrefl {f : α → Option Nat} (x : Nat × α) : rkLt f x x = false := by
  simp [rkLt, fLt_irrefl]

theorem rkLt_of_rkLe_ne_tags {f : α → Option Nat} {x y : Nat × α}
    (h : rkLe f x y = true) (hne : x.1 ≠ y.1) : rkLt f x y = true := by
  rw [rkLe_iff] at h
  rw [rkLt_iff]
  rcases h with h | ⟨he, ht⟩
  · exact Or.inl h
  · exact Or.inr ⟨he, lt_of_le_of_ne ht hne⟩

theorem rkLe_of_rkLt {f : α → Option Nat} {x y : Nat × α}
    (h : rkLt f x y = true) : rkLe f x y = true := by
  rw [rkLt_iff] at h
  rw [rkLe_iff]
  rcases h with h | ⟨he, ht⟩
  · exact Or.inl h
  · exact Or.inr ⟨he, le_of_lt ht⟩

theorem rkLt_total_ne_tags {f : α → Option Nat} {x y : Nat × α} (hne : x.1 ≠ y.1) :
    rkLt f x y = true ∨ rkLt f y x = true := by
  rcases rkLe_total (f := f) x y with h | h
  · exact Or.inl (rkLt_of_rkLe_ne_tags h hne)
  · exact Or.inr (rkLt_of_rkLe_ne_tags h (Ne.symm hne))

/-! ## Position tagging facts -/

theorem tagFrom_append (n : Nat) (l₁ l₂ : List α) :
    tagFrom n (l₁ ++ l₂) = tagFrom n l₁ ++ tagFrom (n + l₁.length) l₂ := by
  induction l₁ generalizing n with
  | nil => simp [tagFrom]
  | cons a l ih =>
    have he : n + 1 + l.length = n + (l.length + 1) := by omega
    show (n, a) :: tagFrom (n + 1) (l ++ l₂)
        = (n, a) :: (tagFrom (n + 1) l ++ tagFrom (n + (l.length + 1)) l₂)
    rw [ih (n + 1), he]

theorem map_snd_tagFrom (n : Nat) (l : List α) : (tagFrom n l).map Prod.snd = l := by
  induction l generalizing n with
  | nil => rfl
  | cons a l ih => simp [tagFrom, ih]

theorem mem_tagFrom_bounds {n : Nat} {l : List α} {x : Nat × α}
    (h : x ∈ tagFrom n l) : n ≤ x.1 ∧ x.1 < n + l.length := by
  induction l generalizing n with
  | nil => cases h
  | cons a l ih =>
    rcases List.mem_cons.mp h with he | h'
    · rw [he]
      simp
    · have := ih h'
      simp only [List.length_cons]
      omega

theorem mem_snd_tagFrom {n : Nat} {l : List α} {x : Nat × α}
    (h : x ∈ tagFrom n l) : x.2 ∈ l := by
  have := List.mem_map_of_mem Prod.snd h
  rwa [map_snd_tagFrom] at this

theorem tagFrom_tag_inj {n : Nat} {l : List α} {x y : Nat × α}
    (hx : x ∈ tagFrom n l) (hy : y ∈ tagFrom n l) (h : x.1 = y.1) : x = y := by
  induction l generalizing n with
  | nil => cases hx
  | cons a l ih =>
    rcases List.mem_cons.mp hx with hex | hx'
    · rcases List.mem_cons.mp hy with hey | hy'
      · rw [hex, hey]
      · exfalso
        have := (mem_tagFrom_bounds hy').1
        rw [hex] at h
        omega
    · rcases List.mem_cons.mp hy with hey | hy'
      · exfalso
        have := (mem_tagFrom_bounds hx').1
        rw [hey] at h
        omega
      · exact ih hx' hy'

theorem tagFrom_nodup (n : Nat) (l : List α) : (tagFrom n l).Nodup := by
  induction l generalizing n with
  | nil => simp [tagFrom]
  | cons a l ih =>
    refine List.nodup_cons.mpr ⟨?_, ih (n + 1)⟩
    intro hmem
    have := (mem_tagFrom_bounds hmem).1
    omega

theorem tagFrom_shift_mem {n n' : Nat} {l : List α} {x : Nat × α}
    (h : x ∈ tagFrom n l) : (x.1 - n + n', x.2) ∈ tagFrom n' l := by
  induction l generalizing n n' with
  | nil => cases h
  | cons a l ih =>
    rcases List.mem_cons.mp h with he | h'
    · rw [he]
      simp [tagFrom]
    · have hb := (mem_tagFrom_bounds h').1
      have := @ih _ (n' + 1) h'
      have he : x.1 - n + n' = x.1 - (n + 1) + (n' + 1) := by omega
      rw [he]
      exact List.mem_cons_of_mem _ this

theorem exists_tag_of_mem {n : Nat} {l : List α} {a : α} (h : a ∈ l) :
    ∃ u ∈ tagFrom n l, u.2 = a := by
  have : a ∈ (tagFrom n l).map Prod.snd := by
    rw [map_snd_tagFrom]
    exact h
  rcases List.mem_map.mp this with ⟨u, hu, he⟩
  exact ⟨u, hu, he⟩

theorem tagFrom_val_inj {n : Nat} {l : List α} (hl : l.Nodup) {x y : Nat × α}
    (hx : x ∈ tagFrom n l) (hy : y ∈ tagFrom n l) (h : x.2 = y.2) : x = y := by
  induction l generalizing n with
  | nil => cases hx
  | cons a l ih =>
    rcases List.nodup_cons.mp hl with ⟨hna, hnd⟩
    rcases List.mem_cons.mp hx with hex | hx'
    · rcases List.mem_cons.mp hy with hey | hy'
      · rw [hex, hey]
      · exfalso
        have h2 := mem_snd_tagFrom hy'
        rw [← h, hex] at h2
        exact hna h2
    · rcases List.mem_cons.mp hy with hey | hy'
      · exfalso
        have h2 := mem_snd_tagFrom hx'
        rw [h, hey] at h2
        exact hna h2
      · exact ih hnd hx' hy'

/-! ## Facts about relative position -/

theorem Before.rel {R : α → α → Prop} {l : List α} {u v : α}
    (hp : l.Pairwise R) (h : Before l u v) : R u v := by
  rcases h with ⟨l₁, l₂, l₃, rfl⟩
  have h2 := (List.pairwise_append.mp hp).2.1
  exact (List.pairwise_cons.mp h2).1 v
    (List.mem_append_right _ (List.mem_cons_self _ _))

theorem before_mem {l : List α} {u v : α} (h : Before l u v) : u ∈ l ∧ v ∈ l := by
  rcases h with ⟨l₁, l₂, l₃, rfl⟩
  constructor
  · exact List.mem_append_right _ (List.mem_cons_self _ _)
  · refine List.mem_append_right _ (List.mem_cons_of_mem _ ?_)
    exact List.mem_append_right _ (List.mem_cons_self _ _)

theorem before_head_or_tail {a : α} {l : List α} {u v : α} (h : Before (a :: l) u v) :
    (u = a ∧ v ∈ l) ∨ Before l u v := by
  rcases h with ⟨l₁, l₂, l₃, he⟩
  cases l₁ with
  | nil =>
    rw [List.nil_append] at he
    injection he with h1 h2
    refine Or.inl ⟨h1.symm, ?_⟩
    rw [h2]
    exact List.mem_append_right _ (List.mem_cons_self _ _)
  | cons b l₁' =>
    rw [List.cons_append] at he
    injection he with h1 h2
    exact Or.inr ⟨l₁', l₂, l₃, h2⟩

theorem before_cons {a : α} {l : List α} {u v : α} (h : Before l u v) :
    Before (a :: l) u v := by
  rcases h with ⟨l₁, l₂, l₃, rfl⟩
  exact ⟨a :: l₁, l₂, l₃, rfl⟩

theorem before_total {l : List α} {u v : α} (hu : u ∈ l) (hv : v ∈ l) (hne : u ≠ v) :
    Before l u v ∨ Before l v u := by
  induction l with
  | nil => cases hu
  | cons a l ih =>
    rcases List.mem_cons.mp hu with hue | hu'
    · have hv' : v ∈ l := by
        rcases List.mem_cons.mp hv with hve | h'
        · exact absurd (hue.trans hve.symm) hne
        · exact h'
      rcases List.append_of_mem hv' with ⟨s, t, hst⟩
      exact Or.inl ⟨[], s, t, by simp [hue, hst]⟩
    · rcases List.mem_cons.mp hv with hve | hv'
      · rcases List.append_of_mem hu' with ⟨s, t, hst⟩
        exact Or.inr ⟨[], s, t, by simp [hve, hst]⟩
      · rcases ih hu' hv' with h | h
        · exact Or.inl (before_cons h)
        · exact Or.inr (before_cons h)

theorem before_asymm : ∀ {l : List α}, l.Nodup → ∀ {u v : α},
    Before l u v → Before l v u → False := by
  intro l
  induction l with
  | nil =>
    intro _ u v h1 _
    rcases h1 with ⟨l₁, l₂, l₃, he⟩
    cases l₁ <;> simp at he
  | cons a l ih =>
    intro hl u v h1 h2
    rcases List.nodup_cons.mp hl with ⟨hna, hnd⟩
    rcases before_head_or_tail h1 with ⟨hua, hvl⟩ | h1'
    · rcases before_head_or_tail h2 with ⟨hva, hul⟩ | h2'
      · apply hna
        rw [← hva]
        exact hvl
      · apply hna
        rw [← hua]
        exact (before_mem h2').2
    · rcases before_head_or_tail h2 with ⟨hva, hul⟩ | h2'
      · apply hna
        rw [← hva]
        exact (before_mem h1').2
      · exact ih hnd h1' h2'

theorem before_self {l : List α} (hl : l.Nodup) {u : α} (h : Before l u u) : False :=
  before_asymm hl h h

theorem before_map (g : α → β) {l : List α} {u v : α} (h : Before l u v) :
    Before (l.map g) (g u) (g v) := by
  rcases h with ⟨l₁, l₂, l₃, rfl⟩
  exact ⟨l₁.map g, l₂.map g, l₃.map g, by simp⟩

theorem before_filter {q : α → Bool} {l : List α} {u v : α}
    (h : Before l u v) (hqu : q u = true) (hqv : q v = true) :
    Before (l.filter q) u v := by
  rcases h with ⟨l₁, l₂, l₃, rfl⟩
  refine ⟨l₁.filter q, l₂.filter q, l₃.filter q, ?_⟩
  simp [List.filter_append, List.filter_cons, hqu, hqv]

theorem before_filter_iff {q : α → Bool} {l : List α} (hl : l.Nodup) {u v : α}
    (hu : u ∈ l) (hv : v ∈ l) (hqu : q u = true) (hqv : q v = true) :
    Before (l.filter q) u v ↔ Before l u v := by
  constructor
  · intro h
    by_cases hne : u = v
    · rw [hne] at h
      exact absurd h (fun h' => before_self (hl.filter q) h')
    · rcases before_total hu hv hne with h' | h'
      · exact h'
      · exact absurd h (fun h'' => before_asymm (hl.filter q) h''
          (before_filter h' hqv hqu))
  · intro h
    exact before_filter h hqu hqv

theorem before_map_iff {g : α → β} {l : List α} (hl : (l.map g).Nodup) {u v : α}
    (hu : u ∈ l) (hv : v ∈ l) :
    Before (l.map g) (g u) (g v) ↔ Before l u v := by
  constructor
  · intro h
    by_cases hne : u = v
    · rw [hne] at h
      exact absurd h (fun h' => before_self hl h')
    · rcases before_total hu hv hne with h' | h'
      · exact h'
      · exact absurd h (fun h'' => before_asymm hl h'' (before_map g h'))
  · exact before_map g

theorem tagFrom_before {n : Nat} {l : List α} {u v : Nat × α}
    (hu : u ∈ tagFrom n l) (hv : v ∈ tagFrom n l) (hlt : u.1 < v.1) :
    Before l u.2 v.2 := by
  induction l generalizing n with
  | nil => cases hu
  | cons a l ih =>
    rcases List.mem_cons.mp hu with heu | hu'
    · rcases List.mem_cons.mp hv with hev | hv'
      · exfalso
        rw [heu, hev] at hlt
        exact lt_irrefl n hlt
      · have hm := mem_snd_tagFrom hv'
        rcases List.append_of_mem hm with ⟨s, t, hst⟩
        refine ⟨[], s, t, ?_⟩
        rw [heu, hst]
        rfl
    · rcases List.mem_cons.mp hv with hev | hv'
      · exfalso
        have hb := (mem_tagFrom_bounds hu').1
        rw [hev] at hlt
        omega
      · exact before_cons (ih hu' hv')

theorem tagFrom_before_iff {n : Nat} {l : List α} (hl : l.Nodup) {u v : Nat × α}
    (hu : u ∈ tagFrom n l) (hv : v ∈ tagFrom n l) :
    Before l u.2 v.2 ↔ u.1 < v.1 := by
  constructor
  · intro h
    rcases Nat.lt_trichotomy u.1 v.1 with hlt | he | hgt
    · exact hlt
    · exfalso
      have heq : u = v := tagFrom_tag_inj hu hv he
      rw [heq] at h
      exact before_self hl h
    · exact absurd h (fun h' => before_asymm hl h' (tagFrom_before hv hu hgt))
  · exact tagFrom_before hu hv

/-! ## The stable pipeline through position tags -/

theorem rkLe_low {f : α → Option Nat} {n : Nat} {a : α} {y : Nat × α} (h : n < y.1) :
    rkLe f (n, a) y = ascOf f a y.2 := by
  rw [ascOf, optAscLe_eq_fLt_or_eq, rkLe]
  simp [Nat.le_of_lt h]

theorem map_snd_sInsert_tag {f : α → Option Nat} {n : Nat} {a : α} :
    ∀ {S : List (Nat × α)}, (∀ y ∈ S, n < y.1) →
      (sInsert (rkLe f) (n, a) S).map Prod.snd =
        sInsert (ascOf f) a (S.map Prod.snd) := by
  intro S
  induction S with
  | nil => intro _; rfl
  | cons y S ih =>
    intro hS
    have hny : n < y.1 := hS y (List.mem_cons_self _ _)
    have hrest : ∀ z ∈ S, n < z.1 := fun z hz => hS z (List.mem_cons_of_mem _ hz)
    simp only [sInsert, List.map_cons]
    rw [rkLe_low hny]
    cases hc : ascOf f a y.2
    · simp only [hc, Bool.false_eq_true, if_false, List.map_cons]
      rw [ih hrest]
    · simp [hc]

theorem map_snd_sSort_tag {f : α → Option Nat} :
    ∀ (l : List α) (n : Nat),
      (sSort (rkLe f) (tagFrom n l)).map Prod.snd = sSort (ascOf f) l := by
  intro l
  induction l with
  | nil => intro n; rfl
  | cons a l ih =>
    intro n
    simp only [tagFrom, sSort]
    rw [map_snd_sInsert_tag ?_, ih (n + 1)]
    intro y hy
    have := (mem_tagFrom_bounds (mem_sSort.mp hy)).1
    omega

theorem any_key_map_snd [DecidableEq κ] (k : α → κ) (c : κ) :
    ∀ (T : List (Nat × α)),
      (T.any fun b => decide (k b.2 = c)) =
        ((T.map Prod.snd).any fun b => decide (k b = c)) := by
  intro T
  induction T with
  | nil => rfl
  | cons z T ih => simp [List.any_cons, ih]

theorem map_snd_keepLast [DecidableEq κ] (k : α → κ) :
    ∀ (T : List (Nat × α)),
      (keepLast (fun x => k x.2) T).map Prod.snd = keepLast k (T.map Prod.snd) := by
  intro T
  induction T with
  | nil => rfl
  | cons x T ih =>
    have hc : (T.any fun b => decide (k b.2 = k x.2)) =
        ((T.map Prod.snd).any fun b => decide (k b = k x.2)) :=
      any_key_map_snd k (k x.2) T
    simp only [keepLast, List.map_cons, ← hc]
    cases hcc : (T.any fun b => decide (k b.2 = k x.2))
    · simp [hcc, ih]
    · simp [hcc, ih]

theorem dedup_as_winList [DecidableEq κ] (f : α → Option Nat) (k : α → κ) (l : List α) :
    keepLast k (sSort (ascOf f) l) = (winList f k (tagFrom 0 l)).map Prod.snd := by
  rw [winList, map_snd_keepLast, map_snd_sSort_tag]

/-! ## Membership in keepLast over a duplicate-free list -/

theorem dom_cons_iff {k : α → κ} {a x : α} {l : List α}
    (hna : a ∉ l) (hne : x ≠ a) (hxl : x ∈ l) :
    (∀ y ∈ a :: l, k y = k x → y = x ∨ Before (a :: l) y x) ↔
      (∀ y ∈ l, k y = k x → y = x ∨ Before l y x) := by
  constructor
  · intro h y hy hk
    rcases h y (List.mem_cons_of_mem _ hy) hk with he | hb
    · exact Or.inl he
    · rcases before_head_or_tail hb with ⟨hya, _⟩ | hb'
      · exact absurd (hya ▸ hy) hna
      · exact Or.inr hb'
  · intro h y hy hk
    rcases List.mem_cons.mp hy with hya | hy'
    · refine Or.inr ?_
      rcases List.append_of_mem hxl with ⟨s, t, hst⟩
      refine ⟨[], s, t, ?_⟩
      rw [hya, hst]
      rfl
    · rcases h y hy' hk with he | hb
      · exact Or.inl he
      · exact Or.inr (before_cons hb)

theorem keepLast_mem_iff_nodup [DecidableEq κ] {k : α → κ} :
    ∀ {l : List α}, l.Nodup → ∀ {x : α},
      (x ∈ keepLast k l ↔ x ∈ l ∧ ∀ y ∈ l, k y = k x → y = x ∨ Before l y x) := by
  intro l
  induction l with
  | nil =>
    intro _ x
    simp [keepLast]
  | cons a l ih =>
    intro hl x
    rcases List.nodup_cons.mp hl with ⟨hna, hnd⟩
    by_cases hc : (l.any fun b => k b = k a) = true
    · have hkl : keepLast k (a :: l) = keepLast k l := by
        rw [keepLast, if_pos hc]
      rw [hkl]
      by_cases hxa : x = a
      · subst hxa
        constructor
        · intro hmem
          exact absurd (mem_keepLast hmem) hna
        · rintro ⟨hx, hdom⟩
          exfalso
          rcases List.any_eq_true.mp hc with ⟨w, hwl, hkw⟩
          have hkw' : k w = k x := by simpa using hkw
          have hwx : w ≠ x := fun he => hna (he ▸ hwl)
          rcases hdom w (List.mem_cons_of_mem _ hwl) hkw' with he | hb
          · exact hwx he
          · rcases before_head_or_tail hb with ⟨hwa, _⟩ | hb'
            · exact hna (hwa ▸ hwl)
            · exact hna (before_mem hb').2
      · rw [ih hnd]
        constructor
        · rintro ⟨hxl, hdom⟩
          exact ⟨List.mem_cons_of_mem _ hxl, (dom_cons_iff hna hxa hxl).mpr hdom⟩
        · rintro ⟨hx, hdom⟩
          have hxl : x ∈ l := by
            rcases List.mem_cons.mp hx with h | h
            · exact absurd h hxa
            · exact h
          exact ⟨hxl, (dom_cons_iff hna hxa hxl).mp hdom⟩
    · have hkl : keepLast k (a :: l) = a :: keepLast k l := by
        rw [keepLast, if_neg hc]
      rw [hkl]
      by_cases hxa : x = a
      · subst hxa
        constructor
        · intro _
          refine ⟨List.mem_cons_self _ _, ?_⟩
          intro y hy hk
          rcases List.mem_cons.mp hy with hya | hy'
          · exact Or.inl hya
          · exfalso
            apply hc
            refine List.any_eq_true.mpr ⟨y, hy', ?_⟩
            simpa using hk
        · intro _
          exact List.mem_cons_self _ _
      · constructor
        · intro hmem
          have hx' : x ∈ keepLast k l := by
            rcases List.mem_cons.mp hmem with h | h
            · exact absurd h hxa
            · exact h
          rcases (ih hnd).mp hx' with ⟨hxl, hdom⟩
          exact ⟨List.mem_cons_of_mem _ hxl, (dom_cons_iff hna hxa hxl).mpr hdom⟩
        · rintro ⟨hx, hdom⟩
          have hxl : x ∈ l := by
            rcases List.mem_cons.mp hx with h | h
            · exact absurd h hxa
            · exact h
          exact List.mem_cons_of_mem _
            ((ih hnd).mpr ⟨hxl, (dom_cons_iff hna hxa hxl).mp hdom⟩)

/-! ## Winner characterisation -/

theorem before_rkLt {f : α → Option Nat} {S : List (Nat × α)}
    (hp : S.Pairwise (fun u v => rkLt f u v = true)) {u v : Nat × α}
    (h : Before S u v) : rkLt f u v = true := by
  have h2 := Before.rel hp h
  exact h2

theorem winList_mem_iff [DecidableEq κ] {f : α → Option Nat} {k : α → κ}
    {E : List (Nat × α)} (hE : E.Nodup)
    (htags : ∀ x ∈ E, ∀ y ∈ E, x.1 = y.1 → x = y) {x : Nat × α} :
    x ∈ winList f k E ↔
      x ∈ E ∧ ∀ y ∈ E, k y.2 = k x.2 → y = x ∨ rkLt f y x = true := by
  have hperm := sSort_perm (rkLe f) E
  have hSnodup : (sSort (rkLe f) E).Nodup := hperm.nodup_iff.mpr hE
  have hStags : ∀ u ∈ sSort (rkLe f) E, ∀ v ∈ sSort (rkLe f) E, u.1 = v.1 → u = v :=
    fun u hu v hv => htags u (mem_sSort.mp hu) v (mem_sSort.mp hv)
  have hsorted : (sSort (rkLe f) E).Pairwise (fun u v => rkLe f u v = true) :=
    sSort_pairwise rkLe_trans rkLe_total E
  have hstrict : (sSort (rkLe f) E).Pairwise (fun u v => rkLt f u v = true) := by
    have hne : (sSort (rkLe f) E).Pairwise (fun u v => u ≠ v) := hSnodup
    refine List.Pairwise.imp_of_mem ?_ (hsorted.and hne)
    intro u v hu hv hr
    refine rkLt_of_rkLe_ne_tags hr.1 ?_
    intro htag
    exact hr.2 (hStags u hu v hv htag)
  rw [winList, keepLast_mem_iff_nodup hSnodup]
  constructor
  · rintro ⟨hxS, hdom⟩
    refine ⟨mem_sSort.mp hxS, ?_⟩
    intro y hy hk
    rcases hdom y (mem_sSort.mpr hy) hk with he | hb
    · exact Or.inl he
    · exact Or.inr (before_rkLt hstrict hb)
  · rintro ⟨hxE, hdom⟩
    refine ⟨mem_sSort.mpr hxE, ?_⟩
    intro y hy hk
    rcases hdom y (mem_sSort.mp hy) hk with he | hlt
    · exact Or.inl he
    · refine Or.inr ?_
      have hne : y ≠ x := by
        intro he'
        rw [he'] at hlt
        rw [rkLt_irrefl] at hlt
        cases hlt
      rcases before_total hy (mem_sSort.mpr hxE) hne with hb | hb
      · exact hb
      · exact (rkLt_asymm hlt (before_rkLt hstrict hb)).elim

/-! ## Transfer: matching sorted winner lists have equal value sequences -/

theorem sorted_winners_map_snd_eq [DecidableEq κ] {f : α → Option Nat} {k : α → κ} :
    ∀ (T₁ T₂ : List (Nat × α)),
      T₁.Pairwise (fun x y => rkLt f x y = true) →
      T₂.Pairwise (fun x y => rkLt f x y = true) →
      T₁.Pairwise (fun x y => k x.2 ≠ k y.2) →
      T₂.Pairwise (fun x y => k x.2 ≠ k y.2) →
      (∀ c, (∃ x ∈ T₁, k x.2 = c) ↔ (∃ y ∈ T₂, k y.2 = c)) →
      (∀ x ∈ T₁, ∀ y ∈ T₂, k x.2 = k y.2 → x.2 = y.2) →
      (∀ x ∈ T₁, ∀ x' ∈ T₁, ∀ y ∈ T₂, ∀ y' ∈ T₂, k x.2 = k y.2 → k x'.2 = k y'.2 →
        (rkLt f x x' = true ↔ rkLt f y y' = true)) →
      T₁.map Prod.snd = T₂.map Prod.snd := by
  intro T₁
  induction T₁ with
  | nil =>
    intro T₂ _ _ _ _ hkeys _ _
    cases T₂ with
    | nil => rfl
    | cons y R₂ =>
      exfalso
      rcases (hkeys (k y.2)).mpr ⟨y, List.mem_cons_self _ _, rfl⟩ with ⟨x, hx, _⟩
      exact absurd hx (List.not_mem_nil x)
  | cons x R₁ ih =>
    intro T₂ h1 h2 hk1 hk2 hkeys hval hord
    cases T₂ with
    | nil =>
      exfalso
      rcases (hkeys (k x.2)).mp ⟨x, List.mem_cons_self _ _, rfl⟩ with ⟨y, hy, _⟩
      exact absurd hy (List.not_mem_nil y)
    | cons y R₂ =>
      rcases (hkeys (k x.2)).mp ⟨x, List.mem_cons_self _ _, rfl⟩ with ⟨z, hz, hkz⟩
      have hzy : z = y := by
        rcases List.mem_cons.mp hz with he | hz'
        · exact he
        · exfalso
          rcases (hkeys (k y.2)).mpr ⟨y, List.mem_cons_self _ _, rfl⟩ with ⟨w, hw, hkw⟩
          rcases List.mem_cons.mp hw with hwe | hw'
          · have hne := (List.pairwise_cons.mp hk2).1 z hz'
            have hxy : k x.2 = k y.2 := hwe ▸ hkw
            exact hne (hxy.symm.trans hkz.symm)
          · have hlt1 : rkLt f x w = true := (List.pairwise_cons.mp h1).1 w hw'
            have hlt2 : rkLt f z y = true :=
              (hord x (List.mem_cons_self _ _) w (List.mem_cons_of_mem _ hw')
                z hz y (List.mem_cons_self _ _) hkz.symm hkw).mp hlt1
            have hlt3 : rkLt f y z = true := (List.pairwise_cons.mp h2).1 z hz'
            exact rkLt_asymm hlt2 hlt3
      rw [hzy] at hkz
      have hv : x.2 = y.2 := hval x (List.mem_cons_self _ _) y (List.mem_cons_self _ _) hkz.symm
      have hkeys' : ∀ c, (∃ a ∈ R₁, k a.2 = c) ↔ (∃ b ∈ R₂, k b.2 = c) := by
        intro c
        constructor
        · rintro ⟨a, ha, hka⟩
          rcases (hkeys c).mp ⟨a, List.mem_cons_of_mem _ ha, hka⟩ with ⟨b, hb, hkb⟩
          rcases List.mem_cons.mp hb with hbe | hb'
          · exfalso
            have hne := (List.pairwise_cons.mp hk1).1 a ha
            have hxc : k x.2 = c := hkz.symm.trans (hbe ▸ hkb)
            exact hne (hxc.trans hka.symm)
          · exact ⟨b, hb', hkb⟩
        · rintro ⟨b, hb, hkb⟩
          rcases (hkeys c).mpr ⟨b, List.mem_cons_of_mem _ hb, hkb⟩ with ⟨a, ha, hka⟩
          rcases List.mem_cons.mp ha with hae | ha'
          · exfalso
            have hne := (List.pairwise_cons.mp hk2).1 b hb
            have hyc : k y.2 = c := hkz.trans (hae ▸ hka)
            exact hne (hyc.trans hkb.symm)
          · exact ⟨a, ha', hka⟩
      have htail := ih R₂ (List.pairwise_cons.mp h1).2 (List.pairwise_cons.mp h2).2
        (List.pairwise_cons.mp hk1).2 (List.pairwise_cons.mp hk2).2 hkeys'
        (fun a ha b hb hk =>
          hval a (List.mem_cons_of_mem _ ha) b (List.mem_cons_of_mem _ hb) hk)
        (fun a ha a' ha' b hb b' hb' hk hk' =>
          hord a (List.mem_cons_of_mem _ ha) a' (List.mem_cons_of_mem _ ha')
            b (List.mem_cons_of_mem _ hb) b' (List.mem_cons_of_mem _ hb') hk hk')
      rw [List.map_cons, List.map_cons, hv, htail]

/-! ## Strictly sorted winner lists -/

theorem optDescLe_refl (x : Option Nat) : optDescLe x x = true := by
  cases x <;> simp [optDescLe]

theorem sSort_rk_strict {f : α → Option Nat} {E : List (Nat × α)} (hE : E.Nodup)
    (htags : ∀ x ∈ E, ∀ y ∈ E, x.1 = y.1 → x = y) :
    (sSort (rkLe f) E).Pairwise (fun u v => rkLt f u v = true) := by
  have hSnodup : (sSort (rkLe f) E).Nodup := (sSort_perm (rkLe f) E).nodup_iff.mpr hE
  have hne : (sSort (rkLe f) E).Pairwise (fun u v => u ≠ v) := hSnodup
  have hsorted : (sSort (rkLe f) E).Pairwise (fun u v => rkLe f u v = true) :=
    sSort_pairwise rkLe_trans rkLe_total E
  refine List.Pairwise.imp_of_mem ?_ (hsorted.and hne)
  intro u v hu hv hr
  refine rkLt_of_rkLe_ne_tags hr.1 ?_
  intro htag
  exact hr.2 (htags u (mem_sSort.mp hu) v (mem_sSort.mp hv) htag)

theorem winList_strict [DecidableEq κ] {f : α → Option Nat} {k : α → κ}
    {E : List (Nat × α)} (hE : E.Nodup)
    (htags : ∀ x ∈ E, ∀ y ∈ E, x.1 = y.1 → x = y) :
    (winList f k E).Pairwise (fun u v => rkLt f u v = true) :=
  keepLast_pairwise (sSort_rk_strict hE htags)

theorem winList_keys_pairwise [DecidableEq κ] (f : α → Option Nat) (k : α → κ)
    (E : List (Nat × α)) :
    (winList f k E).Pairwise (fun u v => k u.2 ≠ k v.2) :=
  keepLast_keys_nodup (fun x => k x.2) (sSort (rkLe f) E)

theorem winList_snd_nodup [DecidableEq κ] (f : α → Option Nat) (k : α → κ)
    (E : List (Nat × α)) : ((winList f k E).map Prod.snd).Nodup := by
  have h := winList_keys_pairwise f k E
  have h2 : (winList f k E).Pairwise (fun a b => a.2 ≠ b.2) :=
    h.imp (fun hk he => hk (by rw [he]))
  exact List.pairwise_map.mpr h2

theorem winList_snd_key_unique [DecidableEq κ] {f : α → Option Nat} {k : α → κ}
    {E : List (Nat × α)} {v v' : α}
    (hv : v ∈ (winList f k E).map Prod.snd) (hv' : v' ∈ (winList f k E).map Prod.snd)
    (hk : k v = k v') : v = v' := by
  rcases List.mem_map.mp hv with ⟨t, ht, rfl⟩
  rcases List.mem_map.mp hv' with ⟨t', ht', rfl⟩
  by_cases he : t = t'
  · rw [he]
  · exfalso
    have hsym : Symmetric (fun u v : Nat × α => k u.2 ≠ k v.2) :=
      fun u v h h2 => h h2.symm
    have hforall := List.Pairwise.forall hsym (winList_keys_pairwise f k E)
    exact hforall ht ht' he hk

/-! ## The winner transfer: feeding the output back preserves every winner -/

theorem winner_transfer [DecidableEq κ] (f : α → Option Nat) (k : α → κ)
    (X M Z W D : List α)
    (hW : W = (winList f k (tagFrom 0 (X ++ (M ++ Z)))).map Prod.snd)
    (hD : D = sSort (descOf f) W) :
    ∀ y ∈ winList f k (tagFrom 0 (X ++ (M ++ Z))),
      ∃ x ∈ winList f k (tagFrom 0 (X ++ (D ++ Z))),
        x.2 = y.2 ∧
        ((y.1 < X.length + M.length ∧ x ∈ tagFrom X.length D) ∨
         (X.length + M.length ≤ y.1 ∧
           x.1 = y.1 - (X.length + M.length) + (X.length + D.length))) := by
  intro y hy
  have hdec₂ : tagFrom 0 (X ++ (M ++ Z)) =
      tagFrom 0 X ++ (tagFrom X.length M ++ tagFrom (X.length + M.length) Z) := by
    rw [tagFrom_append, tagFrom_append, Nat.zero_add]
  have hdec₁ : tagFrom 0 (X ++ (D ++ Z)) =
      tagFrom 0 X ++ (tagFrom X.length D ++ tagFrom (X.length + D.length) Z) := by
    rw [tagFrom_append, tagFrom_append, Nat.zero_add]
  have hE₂n := tagFrom_nodup 0 (X ++ (M ++ Z))
  have hE₁n := tagFrom_nodup 0 (X ++ (D ++ Z))
  have ht₂ : ∀ u ∈ tagFrom 0 (X ++ (M ++ Z)), ∀ v ∈ tagFrom 0 (X ++ (M ++ Z)),
      u.1 = v.1 → u = v := fun u hu v hv h => tagFrom_tag_inj hu hv h
  have ht₁ : ∀ u ∈ tagFrom 0 (X ++ (D ++ Z)), ∀ v ∈ tagFrom 0 (X ++ (D ++ Z)),
      u.1 = v.1 → u = v := fun u hu v hv h => tagFrom_tag_inj hu hv h
  have hWn : W.Nodup := by
    rw [hW]
    exact winList_snd_nodup f k _
  have hDn : D.Nodup := by
    rw [hD]
    exact (sSort_perm (descOf f) W).nodup_iff.mpr hWn
  have hDW : ∀ v : α, v ∈ D ↔ v ∈ W := by
    rw [hD]
    exact fun v => (sSort_perm _ _).mem_iff
  have hyW : y.2 ∈ W := by
    rw [hW]
    exact List.mem_map_of_mem _ hy
  rcases (winList_mem_iff hE₂n ht₂).mp hy with ⟨hyE, hdom⟩
  have hkeyW : ∀ v ∈ W, k v = k y.2 → v = y.2 := by
    intro v hv hk
    rw [hW] at hv hyW
    exact winList_snd_key_unique hv hyW hk
  rw [hdec₂] at hyE
  by_cases hyb : X.length + M.length ≤ y.1
  · -- y sits in the Z block: its shifted copy is the pool-2 winner
    have hyZ : y ∈ tagFrom (X.length + M.length) Z := by
      rcases List.mem_append.mp hyE with hyX | hyMZ
      · exfalso
        have := (mem_tagFrom_bounds hyX).2
        omega
      · rcases List.mem_append.mp hyMZ with hyM | hyZ
        · exfalso
          have := (mem_tagFrom_bounds hyM).2
          omega
        · exact hyZ
    have hcand : (y.1 - (X.length + M.length) + (X.length + D.length), y.2) ∈
        tagFrom (X.length + D.length) Z := tagFrom_shift_mem hyZ
    refine ⟨(y.1 - (X.length + M.length) + (X.length + D.length), y.2), ?_, rfl,
      Or.inr ⟨hyb, rfl⟩⟩
    refine (winList_mem_iff hE₁n ht₁).mpr ⟨?_, ?_⟩
    · rw [hdec₁]
      exact List.mem_append_right _ (List.mem_append_right _ hcand)
    · intro u hu hk
      have hk' : k u.2 = k y.2 := hk
      rw [hdec₁] at hu
      rcases List.mem_append.mp hu with huX | huDZ
      · have huE₂ : u ∈ tagFrom 0 (X ++ (M ++ Z)) := by
          rw [hdec₂]
          exact List.mem_append_left _ huX
        have hub := mem_tagFrom_bounds huX
        rcases hdom u huE₂ hk' with he | hlt
        · exfalso
          have h2 : u.1 = y.1 := congrArg Prod.fst he
          omega
        · right
          rw [rkLt_iff] at hlt ⊢
          rcases hlt with h | ⟨he, ht⟩
          · exact Or.inl h
          · refine Or.inr ⟨he, ?_⟩
            show u.1 < y.1 - (X.length + M.length) + (X.length + D.length)
            omega
      · rcases List.mem_append.mp huDZ with huD | huZ
        · have hu2W : u.2 ∈ W := (hDW _).mp (mem_snd_tagFrom huD)
          have hval : u.2 = y.2 := hkeyW u.2 hu2W hk'
          right
          rw [rkLt_iff]
          refine Or.inr ⟨by rw [hval], ?_⟩
          have hub := mem_tagFrom_bounds huD
          show u.1 < y.1 - (X.length + M.length) + (X.length + D.length)
          omega
        · have hu₂ := @tagFrom_shift_mem _ _ (X.length + M.length) _ _ huZ
          have hub := mem_tagFrom_bounds huZ
          have huE₂ : (u.1 - (X.length + D.length) + (X.length + M.length), u.2) ∈
              tagFrom 0 (X ++ (M ++ Z)) := by
            rw [hdec₂]
            exact List.mem_append_right _ (List.mem_append_right _ hu₂)
          rcases hdom _ huE₂ hk' with he | hlt
          · left
            have h1g := congrArg Prod.snd he
            have h1 : u.2 = y.2 := h1g
            have h2g := congrArg Prod.fst he
            have h2 : u.1 - (X.length + D.length) + (X.length + M.length) = y.1 := h2g
            have h3 : u.1 = y.1 - (X.length + M.length) + (X.length + D.length) := by
              omega
            exact Prod.ext h3 h1
          · right
            rw [rkLt_iff] at hlt ⊢
            rcases hlt with h | ⟨he, ht⟩
            · exact Or.inl h
            · refine Or.inr ⟨he, ?_⟩
              have ht' : u.1 - (X.length + D.length) + (X.length + M.length) < y.1 := ht
              show u.1 < y.1 - (X.length + M.length) + (X.length + D.length)
              omega
  · -- y sits in the X or M block: its copy in the D block is the pool-2 winner
    have hyD : y.2 ∈ D := (hDW _).mpr hyW
    rcases exists_tag_of_mem (n := X.length) hyD with ⟨u₀, hu₀, hu₀v⟩
    have hu₀b := mem_tagFrom_bounds hu₀
    refine ⟨u₀, ?_, hu₀v, Or.inl ⟨by omega, hu₀⟩⟩
    refine (winList_mem_iff hE₁n ht₁).mpr ⟨?_, ?_⟩
    · rw [hdec₁]
      exact List.mem_append_right _ (List.mem_append_left _ hu₀)
    · intro u hu hk
      have hk' : k u.2 = k y.2 := by
        have : k u.2 = k u₀.2 := hk
        rw [this, hu₀v]
      rw [hdec₁] at hu
      rcases List.mem_append.mp hu with huX | huDZ
      · have huE₂ : u ∈ tagFrom 0 (X ++ (M ++ Z)) := by
          rw [hdec₂]
          exact List.mem_append_left _ huX
        have hub := mem_tagFrom_bounds huX
        rcases hdom u huE₂ hk' with he | hlt
        · right
          rw [rkLt_iff]
          have h1 : u.2 = y.2 := congrArg Prod.snd he
          refine Or.inr ⟨by rw [h1, hu₀v], ?_⟩
          show u.1 < u₀.1
          omega
        · right
          rw [rkLt_iff] at hlt ⊢
          rcases hlt with h | ⟨he, ht⟩
          · refine Or.inl ?_
            rw [hu₀v]
            exact h
          · refine Or.inr ⟨by rw [hu₀v]; exact he, ?_⟩
            show u.1 < u₀.1
            omega
      · rcases List.mem_append.mp huDZ with huD | huZ
        · left
          have hu2W : u.2 ∈ W := (hDW _).mp (mem_snd_tagFrom huD)
          have hval : u.2 = y.2 := hkeyW u.2 hu2W hk'
          exact tagFrom_val_inj hDn huD hu₀ (by rw [hval, hu₀v])
        · have hu₂ := @tagFrom_shift_mem _ _ (X.length + M.length) _ _ huZ
          have hub := mem_tagFrom_bounds huZ
          have huE₂ : (u.1 - (X.length + D.length) + (X.length + M.length), u.2) ∈
              tagFrom 0 (X ++ (M ++ Z)) := by
            rw [hdec₂]
            exact List.mem_append_right _ (List.mem_append_right _ hu₂)
          rcases hdom _ huE₂ hk' with he | hlt
          · exfalso
            have h2g := congrArg Prod.fst he
            have h2 : u.1 - (X.length + D.length) + (X.length + M.length) = y.1 := h2g
            omega
          · right
            rw [rkLt_iff] at hlt ⊢
            rcases hlt with h | ⟨he, ht⟩
            · refine Or.inl ?_
              rw [hu₀v]
              exact h
            · exfalso
              have ht' : u.1 - (X.length + D.length) + (X.length + M.length) < y.1 := ht
              omega

/-! ## The tagged crux: one keyed dedup pass absorbs its own output -/

theorem rkLt_iff_tags {f : α → Option Nat} {a b : Nat × α} (he : f a.2 = f b.2) :
    rkLt f a b = true ↔ a.1 < b.1 := by
  rw [rkLt_iff]
  constructor
  · rintro (h | ⟨_, ht⟩)
    · rw [he, fLt_irrefl] at h
      cases h
    · exact ht
  · intro ht
    exact Or.inr ⟨he, ht⟩

theorem crux_tagged [DecidableEq κ] (f : α → Option Nat) (k : α → κ)
    (X M Z W D : List α)
    (hW : W = (winList f k (tagFrom 0 (X ++ (M ++ Z)))).map Prod.snd)
    (hD : D = sSort (descOf f) W) :
    (winList f k (tagFrom 0 (X ++ (D ++ Z)))).map Prod.snd =
      (winList f k (tagFrom 0 (X ++ (M ++ Z)))).map Prod.snd := by
  have hE₂n := tagFrom_nodup 0 (X ++ (M ++ Z))
  have hE₁n := tagFrom_nodup 0 (X ++ (D ++ Z))
  have ht₂ : ∀ u ∈ tagFrom 0 (X ++ (M ++ Z)), ∀ v ∈ tagFrom 0 (X ++ (M ++ Z)),
      u.1 = v.1 → u = v := fun u hu v hv h => tagFrom_tag_inj hu hv h
  have ht₁ : ∀ u ∈ tagFrom 0 (X ++ (D ++ Z)), ∀ v ∈ tagFrom 0 (X ++ (D ++ Z)),
      u.1 = v.1 → u = v := fun u hu v hv h => tagFrom_tag_inj hu hv h
  have hWn : W.Nodup := by
    rw [hW]
    exact winList_snd_nodup f k _
  have hDn : D.Nodup := by
    rw [hD]
    exact (sSort_perm (descOf f) W).nodup_iff.mpr hWn
  have hDW : ∀ v : α, v ∈ D ↔ v ∈ W := by
    rw [hD]
    exact fun v => (sSort_perm _ _).mem_iff
  have htr := winner_transfer f k X M Z W D hW hD
  have hkey₁ : ∀ a ∈ winList f k (tagFrom 0 (X ++ (D ++ Z))),
      ∀ b ∈ winList f k (tagFrom 0 (X ++ (D ++ Z))), k a.2 = k b.2 → a = b := by
    intro a ha b hb hk
    by_contra hne
    have hsym : Symmetric (fun u v : Nat × α => k u.2 ≠ k v.2) :=
      fun u v h h2 => h h2.symm
    exact List.Pairwise.forall hsym (winList_keys_pairwise f k _) ha hb hne hk
  have hkey₂ : ∀ a ∈ winList f k (tagFrom 0 (X ++ (M ++ Z))),
      ∀ b ∈ winList f k (tagFrom 0 (X ++ (M ++ Z))), k a.2 = k b.2 → a = b := by
    intro a ha b hb hk
    by_contra hne
    have hsym : Symmetric (fun u v : Nat × α => k u.2 ≠ k v.2) :=
      fun u v h h2 => h h2.symm
    exact List.Pairwise.forall hsym (winList_keys_pairwise f k _) ha hb hne hk
  have hstrict₁ := winList_strict (f := f) (k := k) hE₁n ht₁
  have hstrict₂ := winList_strict (f := f) (k := k) hE₂n ht₂
  refine sorted_winners_map_snd_eq _ _ hstrict₁ hstrict₂
    (winList_keys_pairwise f k _) (winList_keys_pairwise f k _) ?_ ?_ ?_
  · -- keys coincide
    intro c
    constructor
    · rintro ⟨x, hx, hkx⟩
      have hxE : x ∈ tagFrom 0 (X ++ (D ++ Z)) :=
        mem_sSort.mp (mem_keepLast hx)
      have hx2 : x.2 ∈ X ++ (D ++ Z) := mem_snd_tagFrom hxE
      have hpool : x.2 ∈ X ++ (M ++ Z) ∨ x.2 ∈ D := by
        rcases List.mem_append.mp hx2 with h | h
        · exact Or.inl (List.mem_append_left _ h)
        · rcases List.mem_append.mp h with h' | h'
          · exact Or.inr h'
          · exact Or.inl (List.mem_append_right _ (List.mem_append_right _ h'))
      rcases hpool with h | h
      · rcases exists_tag_of_mem (n := 0) h with ⟨u, hu, huv⟩
        refine keepLast_exists_key (k := fun v : Nat × α => k v.2) ⟨u, mem_sSort.mpr hu, ?_⟩
        show k u.2 = c
        rw [huv]
        exact hkx
      · have hxW : x.2 ∈ W := (hDW _).mp h
        rw [hW] at hxW
        rcases List.mem_map.mp hxW with ⟨t, ht, htv⟩
        refine ⟨t, ht, ?_⟩
        rw [htv]
        exact hkx
    · rintro ⟨y, hy, hky⟩
      rcases htr y hy with ⟨x, hx, hxv, _⟩
      refine ⟨x, hx, ?_⟩
      rw [hxv]
      exact hky
  · -- values coincide on matching keys
    intro x hx y hy hk
    rcases htr y hy with ⟨x₀, hx₀, hx₀v, _⟩
    have hke : k x.2 = k x₀.2 := by
      rw [hx₀v, hk]
    have hxe : x = x₀ := hkey₁ x hx x₀ hx₀ hke
    rw [hxe, hx₀v]
  · -- order coincides on matching keys
    intro x hx x' hx' y hy y' hy' hk hk'
    rcases htr y hy with ⟨x₀, hx₀, hx₀v, hx₀loc⟩
    rcases htr y' hy' with ⟨x₀', hx₀', hx₀v', hx₀loc'⟩
    have hxe : x = x₀ := hkey₁ x hx x₀ hx₀ (by rw [hx₀v, hk])
    have hxe' : x' = x₀' := hkey₁ x' hx' x₀' hx₀' (by rw [hx₀v', hk'])
    rw [hxe, hxe']
    by_cases hyy : y = y'
    · have hxx : x₀ = x₀' := by
        refine hkey₁ x₀ hx₀ x₀' hx₀' ?_
        rw [hx₀v, hx₀v', hyy]
      rw [hxx, hyy]
      simp [rkLt_irrefl]
    · have hkne : k y.2 ≠ k y'.2 := by
        intro hke
        have hk2 : k x₀.2 = k x₀'.2 := by rw [hx₀v, hx₀v', hke]
        exact hyy (hkey₂ y hy y' hy' hke)
      have hvne : y.2 ≠ y'.2 := fun hv => hkne (by rw [hv])
      rcases fLt_trichot (f y.2) (f y'.2) with hf | hf | hf
      · refine iff_of_true ?_ ?_
        · rw [rkLt_iff]
          refine Or.inl ?_
          rw [hx₀v, hx₀v']
          exact hf
        · exact rkLt_iff.mpr (Or.inl hf)
      · -- equal timestamps: compare tags through the location facts
        have hfx : f x₀.2 = f x₀'.2 := by rw [hx₀v, hx₀v', hf]
        rw [rkLt_iff_tags hfx, rkLt_iff_tags hf]
        rcases hx₀loc with ⟨hyb, hxD⟩ | ⟨hyb, hxs⟩
        · rcases hx₀loc' with ⟨hyb', hxD'⟩ | ⟨hyb', hxs'⟩
          · -- both winners live in the D block: stability of the descending sort
            have hbD : Before D x₀.2 x₀'.2 ↔ x₀.1 < x₀'.1 :=
              tagFrom_before_iff hDn hxD hxD'
            have hyD : y.2 ∈ D := by
              have := mem_snd_tagFrom hxD
              rw [hx₀v] at this
              exact this
            have hyD' : y'.2 ∈ D := by
              have := mem_snd_tagFrom hxD'
              rw [hx₀v'] at this
              exact this
            have hyWm : y.2 ∈ W := (hDW _).mp hyD
            have hyWm' : y'.2 ∈ W := (hDW _).mp hyD'
            have hq : (fun v => decide (f v = f y.2)) y.2 = true := by simp
            have hq' : (fun v => decide (f v = f y.2)) y'.2 = true := by simp [hf.symm]
            have hfilter : D.filter (fun v => decide (f v = f y.2)) =
                W.filter (fun v => decide (f v = f y.2)) := by
              rw [hD]
              refine filter_sSort_tied ?_ W
              intro a b ha hb
              have ha' : f a = f y.2 := of_decide_eq_true ha
              have hb' : f b = f y.2 := of_decide_eq_true hb
              rw [descOf, ha', hb']
              exact optDescLe_refl _
            have hstep1 := @before_filter_iff α (fun v => decide (f v = f y.2)) D hDn
              y.2 y'.2 hyD hyD' hq hq'
            have hstep2 := @before_filter_iff α (fun v => decide (f v = f y.2)) W hWn
              y.2 y'.2 hyWm hyWm' hq hq'
            have hbDW : Before D y.2 y'.2 ↔ Before W y.2 y'.2 := by
              rw [← hstep1, hfilter, hstep2]
            have hbWT : Before W y.2 y'.2 ↔
                Before (winList f k (tagFrom 0 (X ++ (M ++ Z)))) y y' := by
              rw [hW]
              exact before_map_iff (by rw [← hW]; exact hWn) hy hy'
            have hbT : Before (winList f k (tagFrom 0 (X ++ (M ++ Z)))) y y' ↔
                y.1 < y'.1 := by
              constructor
              · intro hb
                exact (rkLt_iff_tags hf).mp (before_rkLt hstrict₂ hb)
              · intro ht
                have hlt : rkLt f y y' = true := (rkLt_iff_tags hf).mpr ht
                rcases before_total hy hy' hyy with hb | hb
                · exact hb
                · exact (rkLt_asymm hlt (before_rkLt hstrict₂ hb)).elim
            have h1 : x₀.2 = y.2 := hx₀v
            have h2 : x₀'.2 = y'.2 := hx₀v'
            rw [← hbD, h1, h2, hbDW, hbWT, hbT]
          · -- x₀ in the D block, x₀' a shifted Z row: both orders hold
            have hb1 := mem_tagFrom_bounds hxD
            refine iff_of_true ?_ ?_
            · omega
            · omega
        · rcases hx₀loc' with ⟨hyb', hxD'⟩ | ⟨hyb', hxs'⟩
          · -- x₀ a shifted Z row, x₀' in the D block: both orders fail
            have hb1 := mem_tagFrom_bounds hxD'
            refine iff_of_false ?_ ?_
            · omega
            · omega
          · -- both shifted Z rows: the shift is monotone
            constructor
            · intro h
              omega
            · intro h
              omega
      · refine iff_of_false ?_ ?_
        · rw [rkLt_iff]
          rintro (h | ⟨he, _⟩)
          · rw [hx₀v, hx₀v'] at h
            rw [fLt_asymm hf] at h
            cases h
          · rw [hx₀v, hx₀v'] at he
            rw [he, fLt_irrefl] at hf
            cases hf
        · rw [rkLt_iff]
          rintro (h | ⟨he, _⟩)
          · rw [fLt_asymm hf] at h
            cases h
          · rw [he, fLt_irrefl] at hf
            cases hf

theorem crux [DecidableEq κ] (f : α → Option Nat) (k : α → κ) (X M Z : List α) :
    keepLast k (sSort (ascOf f) (X ++ (sSort (descOf f)
        (keepLast k (sSort (ascOf f) (X ++ (M ++ Z)))) ++ Z)))
      = keepLast k (sSort (ascOf f) (X ++ (M ++ Z))) := by
  rw [dedup_as_winList f k (X ++ (M ++ Z))]
  rw [dedup_as_winList f k]
  exact crux_tagged f k X M Z _ _ rfl rfl

/-! ## Feeding the built output back through one dedup branch -/

theorem ascLe_trans (p : String → Option Nat) :
    ∀ a b c : Record, ascLe p a b = true → ascLe p b c = true → ascLe p a c = true :=
  ascOf_trans (tsOf p)

theorem ascLe_total (p : String → Option Nat) :
    ∀ a b : Record, ascLe p a b = true ∨ ascLe p b a = true :=
  ascOf_total (tsOf p)

theorem descLe_trans (p : String → Option Nat) :
    ∀ a b c : Record, descLe p a b = true → descLe p b c = true → descLe p a c = true :=
  descOf_trans (tsOf p)

theorem descLe_total (p : String → Option Nat) :
    ∀ a b : Record, descLe p a b = true ∨ descLe p b a = true :=
  descOf_total (tsOf p)

theorem dedup_branch_feedback [DecidableEq κ] (p : String → Option Nat)
    (g : Record → Bool) (k : Record → κ) (A M B : List Record)
    (hg_out : List.filter g (build p (A ++ M ++ B)) =
      sSort (descLe p) (keepLast k (List.filter g
        (sSort (ascLe p) ((A ++ M ++ B).filter validSummary))))) :
    keepLast k (List.filter g
        (sSort (ascLe p) ((A ++ build p (A ++ M ++ B) ++ B).filter validSummary)))
      = keepLast k (List.filter g
          (sSort (ascLe p) ((A ++ M ++ B).filter validSummary))) := by
  have hvalid : (build p (A ++ M ++ B)).filter validSummary = build p (A ++ M ++ B) :=
    List.filter_eq_self.mpr (fun r hr => (mem_build_decomp hr).2)
  have h1 : (A ++ build p (A ++ M ++ B) ++ B).filter validSummary =
      (A.filter validSummary ++ build p (A ++ M ++ B)) ++ B.filter validSummary := by
    rw [List.filter_append, List.filter_append, hvalid]
  have h2 : (A ++ M ++ B).filter validSummary =
      (A.filter validSummary ++ M.filter validSummary) ++ B.filter validSummary := by
    rw [List.filter_append, List.filter_append]
  rw [h1, h2]
  rw [filter_sSort (ascLe_trans p) (ascLe_total p),
    filter_sSort (ascLe_trans p) (ascLe_total p)]
  simp only [List.filter_append]
  rw [hg_out, h2, filter_sSort (ascLe_trans p) (ascLe_total p)]
  simp only [List.filter_append, List.append_assoc]
  exact crux (tsOf p) k _ _ _

theorem linked_out_filter (p : String → Option Nat) (l : List Record) :
    List.filter hasLink (build p l) =
      sSort (descLe p) (keepLast (fun r => r.link) (List.filter hasLink
        (sSort (ascLe p) (l.filter validSummary)))) := by
  rw [build_eq]
  rw [filter_sSort (descLe_trans p) (descLe_total p)]
  rw [List.filter_append]
  have hL : (dedupLinked p l).filter hasLink = dedupLinked p l :=
    List.filter_eq_self.mpr (fun r hr => (mem_dedupLinked hr).2.2)
  have hN : (dedupLinkless p l).filter hasLink = [] := by
    rw [List.filter_eq_nil_iff]
    intro r hr
    rw [(mem_dedupLinkless hr).2.2]
    exact Bool.false_ne_true
  rw [hL, hN, List.append_nil]
  rfl

theorem linkless_out_filter (p : String → Option Nat) (l : List Record) :
    List.filter (fun r => !hasLink r) (build p l) =
      sSort (descLe p) (keepLast (fun r => (r.title, r.summary))
        (List.filter (fun r => !hasLink r)
          (sSort (ascLe p) (l.filter validSummary)))) := by
  rw [build_eq]
  rw [filter_sSort (descLe_trans p) (descLe_total p)]
  rw [List.filter_append]
  have hL : (dedupLinked p l).filter (fun r => !hasLink r) = [] := by
    rw [List.filter_eq_nil_iff]
    intro r hr
    rw [(mem_dedupLinked hr).2.2]
    simp
  have hN : (dedupLinkless p l).filter (fun r => !hasLink r) = dedupLinkless p l := by
    refine List.filter_eq_self.mpr (fun r hr => ?_)
    rw [(mem_dedupLinkless hr).2.2]
    rfl
  rw [hL, hN, List.nil_append]
  rfl

/-- In the stable model — the `sSort` outcome chosen at every sort — the
builder is idempotent under feedback: re-running over
`A ++ build p (A ++ M ++ B) ++ B` reproduces `build p (A ++ M ++ B)`.  This
is the deterministic core of the no-ties idempotence theorem below, where
every admissible execution is shown to coincide with the stable model. -/
theorem build_feedback_stable (p : String → Option Nat)
    (A M B : List Record) :
    build p (A ++ build p (A ++ M ++ B) ++ B) = build p (A ++ M ++ B) := by
  have hLinked : dedupLinked p (A ++ build p (A ++ M ++ B) ++ B) =
      dedupLinked p (A ++ M ++ B) := by
    rw [dedupLinked, dedupLinked]
    exact dedup_branch_feedback p hasLink (fun r => r.link) A M B
      (linked_out_filter p (A ++ M ++ B))
  have hLinkless : dedupLinkless p (A ++ build p (A ++ M ++ B) ++ B) =
      dedupLinkless p (A ++ M ++ B) := by
    rw [dedupLinkless, dedupLinkless]
    exact dedup_branch_feedback p (fun r => !hasLink r)
      (fun r => (r.title, r.summary)) A M B (linkless_out_filter p (A ++ M ++ B))
  rw [build_eq p (A ++ build p (A ++ M ++ B) ++ B), hLinked, hLinkless]
  exact (build_eq p (A ++ M ++ B)).symm

/-- Under the no-ties hypothesis — no two distinct validated records carry the
same parseable timestamp — every admissible execution's output coincides with
the stable model's: the quicksort's freedom is confined to ties. -/
theorem buildRun_det (p : String → Option Nat) {df final : List Record}
    (hnt : ∀ g ∈ df.filter validSummary, ∀ h ∈ df.filter validSummary,
      tsOf p g = tsOf p h → (tsOf p g).isSome = true → g = h)
    (hb : BuildRun p df final) : final = build p df := by
  rw [BuildRun] at hb
  cases he : df.isEmpty
  · rw [he, if_neg Bool.false_ne_true] at hb
    rcases hb with ⟨asc, hasc, hfin⟩
    have hanti : ∀ a b : Record, ascLe p a b = true → ascLe p b a = true →
        tsOf p a = tsOf p b := fun a b h1 h2 => optAscLe_antisymm h1 h2
    have hsa : SortSpec (tsOf p) (ascLe p) (df.filter validSummary)
        (sSort (ascLe p) (df.filter validSummary)) :=
      sortSpec_sSort_asc (tsOf p) (df.filter validSummary)
    have hascEq : asc = sSort (ascLe p) (df.filter validSummary) :=
      sortSpec_unique hanti hnt hasc hsa
    subst hascEq
    have hfin' : SortSpec (tsOf p) (descLe p)
        (dedupLinked p df ++ dedupLinkless p df) final := hfin
    have hmem : ∀ g ∈ dedupLinked p df ++ dedupLinkless p df,
        g ∈ df.filter validSummary := by
      intro g hg
      rcases List.mem_append.mp hg with h' | h'
      · exact List.mem_filter.mpr ⟨(mem_dedupLinked h').1, (mem_dedupLinked h').2.1⟩
      · exact List.mem_filter.mpr ⟨(mem_dedupLinkless h').1, (mem_dedupLinkless h').2.1⟩
    have hnt₂ : ∀ g ∈ dedupLinked p df ++ dedupLinkless p df,
        ∀ h ∈ dedupLinked p df ++ dedupLinkless p df,
        tsOf p g = tsOf p h → (tsOf p g).isSome = true → g = h :=
      fun g hg h hh => hnt g (hmem g hg) h (hmem h hh)
    have hanti₂ : ∀ a b : Record, descLe p a b = true → descLe p b a = true →
        tsOf p a = tsOf p b := fun a b h1 h2 => optDescLe_antisymm h1 h2
    have hsd : SortSpec (tsOf p) (descLe p) (dedupLinked p df ++ dedupLinkless p df)
        (sSort (descLe p) (dedupLinked p df ++ dedupLinkless p df)) :=
      sortSpec_sSort_desc (tsOf p) (dedupLinked p df ++ dedupLinkless p df)
    have hfinal := sortSpec_unique hanti₂ hnt₂ hfin' hsd
    rw [hfinal, build_eq]
  · rw [he, if_pos rfl] at hb
    rw [hb, build, he, if_pos rfl]

/-- C2, counterexample: the re-run byte-identity claim fails.  Two distinct
validated records `a` and `b` share the link and the parseable timestamp `1`;
`sort_values` with the unstable default quicksort may order the tied pair
either way, so both executions below are admissible.  The first run may keep
`b` as the link group's survivor, and the second run — over the directory in
which the first run's output has replaced the old canonical-file contribution
`M` — may keep `a` instead: the two canonical outputs differ, so the program
does not guarantee byte-identical output on the second run. -/
theorem builder_idempotent_counterexample :
    ∃ A M B out₁ out₂ : List Record,
      BuildRun natTs (A ++ M ++ B) out₁ ∧
      BuildRun natTs (A ++ out₁ ++ B) out₂ ∧ out₁ ≠ out₂ := by
  have hne : (([mkRec "t1" "http://x" "sa" "1"] ++ [mkRec "t2" "http://x" "sb" "1"] ++ [])
      : List Record).isEmpty = false := rfl
  refine ⟨[mkRec "t1" "http://x" "sa" "1"], [mkRec "t2" "http://x" "sb" "1"], [],
    [mkRec "t2" "http://x" "sb" "1"], [mkRec "t1" "http://x" "sa" "1"], ?_, ?_, by decide⟩
  · rw [BuildRun, hne, if_neg Bool.false_ne_true]
    exact ⟨[mkRec "t1" "http://x" "sa" "1", mkRec "t2" "http://x" "sb" "1"],
      ⟨by decide, by decide, by decide⟩, ⟨by decide, by decide, by decide⟩⟩
  · rw [BuildRun, hne, if_neg Bool.false_ne_true]
    exact ⟨[mkRec "t2" "http://x" "sb" "1", mkRec "t1" "http://x" "sa" "1"],
      ⟨by decide, by decide, by decide⟩, ⟨by decide, by decide, by decide⟩⟩

/-- C2 (amended): re-run byte-identity holds exactly on the deterministic
fragment.  If no two distinct validated records of the first run's pool
`A ++ M ++ B` carry the same parseable `collected_at` — the pool has no
timestamp ties for the unstable quicksort to break arbitrarily — then every
admissible second run over the directory in which the first run's output
replaced the old canonical-file contribution `M` (the pool
`A ++ out₁ ++ B`; the canonical `news_data_latest.csv` is excluded from
discovery, and CSV serialisation is a function of the record list) reproduces
the first run's canonical output exactly.  Without the no-ties hypothesis the
claim fails, as the counterexample shows. -/
theorem builder_idempotent_no_ties (p : String → Option Nat)
    (A M B out₁ out₂ : List Record)
    (hnt : ∀ g ∈ (A ++ M ++ B).filter validSummary,
        ∀ h ∈ (A ++ M ++ B).filter validSummary,
        tsOf p g = tsOf p h → (tsOf p g).isSome = true → g = h)
    (h₁ : BuildRun p (A ++ M ++ B) out₁)
    (h₂ : BuildRun p (A ++ out₁ ++ B) out₂) :
    out₂ = out₁ := by
  have he₁ : out₁ = build p (A ++ M ++ B) := buildRun_det p hnt h₁
  have hsub : ∀ g ∈ (A ++ out₁ ++ B).filter validSummary,
      g ∈ (A ++ M ++ B).filter validSummary := by
    intro g hg
    rcases List.mem_filter.mp hg with ⟨hgm, hgv⟩
    rcases List.mem_append.mp hgm with hg' | hgB
    · rcases List.mem_append.mp hg' with hgA | hgO
      · exact List.mem_filter.mpr
          ⟨List.mem_append_left _ (List.mem_append_left _ hgA), hgv⟩
      · have hd := mem_build_decomp (he₁ ▸ hgO)
        exact List.mem_filter.mpr ⟨hd.1, hgv⟩
    · exact List.mem_filter.mpr ⟨List.mem_append_right _ hgB, hgv⟩
  have hnt₂ : ∀ g ∈ (A ++ out₁ ++ B).filter validSummary,
      ∀ h ∈ (A ++ out₁ ++ B).filter validSummary,
      tsOf p g = tsOf p h → (tsOf p g).isSome = true → g = h :=
    fun g hg h hh => hnt g (hsub g hg) h (hsub h hh)
  have he₂ : out₂ = build p (A ++ out₁ ++ B) := buildRun_det p hnt₂ h₂
  rw [he₂, he₁]
  exact build_feedback_stable p A M B

theorem builder_idempotent_no_ties_witness :
    (∀ g ∈ ([mkRec "t" "http://x" "s" "1"] ++ [] ++ []).filter validSummary,
      ∀ h ∈ ([mkRec "t" "http://x" "s" "1"] ++ [] ++ []).filter validSummary,
      tsOf natTs g = tsOf natTs h → (tsOf natTs g).isSome = true → g = h) ∧
    BuildRun natTs ([mkRec "t" "http://x" "s" "1"] ++ [] ++ [])
      [mkRec "t" "http://x" "s" "1"] ∧
    BuildRun natTs
      ([mkRec "t" "http://x" "s" "1"] ++ [mkRec "t" "http://x" "s" "1"] ++ [])
      [mkRec "t" "http://x" "s" "1"] ∧
    ([mkRec "t" "http://x" "s" "1"] : List Record) = [mkRec "t" "http://x" "s" "1"] := by
  have hne1 : (([mkRec "t" "http://x" "s" "1"] ++ [] ++ [])
      : List Record).isEmpty = false := rfl
  have hne2 : (([mkRec "t" "http://x" "s" "1"] ++ [mkRec "t" "http://x" "s" "1"] ++ [])
      : List Record).isEmpty = false := rfl
  have hnt : ∀ g ∈ ([mkRec "t" "http://x" "s" "1"] ++ [] ++ []).filter validSummary,
      ∀ h ∈ ([mkRec "t" "http://x" "s" "1"] ++ [] ++ []).filter validSummary,
      tsOf natTs g = tsOf natTs h → (tsOf natTs g).isSome = true → g = h := by
    decide
  have hb1 : BuildRun natTs ([mkRec "t" "http://x" "s" "1"] ++ [] ++ [])
      [mkRec "t" "http://x" "s" "1"] := by
    rw [BuildRun, hne1, if_neg Bool.false_ne_true]
    exact ⟨[mkRec "t" "http://x" "s" "1"],
      ⟨by decide, by decide, by decide⟩, ⟨by decide, by decide, by decide⟩⟩
  have hb2 : BuildRun natTs
      ([mkRec "t" "http://x" "s" "1"] ++ [mkRec "t" "http://x" "s" "1"] ++ [])
      [mkRec "t" "http://x" "s" "1"] := by
    rw [BuildRun, hne2, if_neg Bool.false_ne_true]
    exact ⟨[mkRec "t" "http://x" "s" "1", mkRec "t" "http://x" "s" "1"],
      ⟨by decide, by decide, by decide⟩, ⟨by decide, by decide, by decide⟩⟩
  exact ⟨hnt, hb1, hb2,
    builder_idempotent_no_ties natTs [mkRec "t" "http://x" "s" "1"] [] []
      [mkRec "t" "http://x" "s" "1"] [mkRec "t" "http://x" "s" "1"] hnt hb1 hb2⟩

end NewsData
